import Mathlib

/-!
A verification development for the SQL query-safety gate of the `tothu`
backend (`app/services/sql_validator.py`, `app/services/nl2sql_service.py`,
`app/api/nl2sql.py`).

Statement texts are modelled as `List Char`.  Python string primitives
(`str.strip`, `str.upper`, `str.split`, `str.count`, `str.startswith`,
`str.endswith`) are embedded below for the ASCII fragment these SQL texts
live in; regular-expression searches (`re.search` with `\b` word boundaries
and `\s` whitespace classes) are embedded as explicit decidable scans.
-/

namespace SqlGate

/-- Python whitespace (the characters `str.strip` / `str.split` treat as
whitespace in the ASCII range): space, tab, newline, carriage return,
vertical tab, form feed. -/
def pyIsSpace (c : Char) : Bool :=
  c == ' ' || c == '\t' || c == '\n' || c == '\r' || c == '\x0b' || c == '\x0c'

/-- A regex word character (`\w` / the characters relevant to `\b`):
letter, digit or underscore. -/
def isWordChar (c : Char) : Bool :=
  c.isAlpha || c.isDigit || c == '_'

/-- `str.upper` on one character (ASCII): `Char.toUpper` maps `a`-`z` to
`A`-`Z` and leaves everything else unchanged, which is Python's behaviour
on the ASCII range. -/
def upperL (s : List Char) : List Char :=
  s.map Char.toUpper

/-- `str.lstrip()`. -/
def lstrip (s : List Char) : List Char :=
  s.dropWhile pyIsSpace

/-- `str.rstrip()`. -/
def rstrip (s : List Char) : List Char :=
  (s.reverse.dropWhile pyIsSpace).reverse

/-- `str.strip()`. -/
def strip (s : List Char) : List Char :=
  rstrip (lstrip s)

/-- `str.split()` (no separator): split on runs of whitespace, discarding
empty pieces.  Structural accumulator formulation so that it computes by
`decide`/`rfl`. -/
def splitWsAux : List Char → List Char → List (List Char)
  | [], acc => if acc.isEmpty then [] else [acc.reverse]
  | c :: cs, acc =>
    if pyIsSpace c then
      if acc.isEmpty then splitWsAux cs [] else acc.reverse :: splitWsAux cs []
    else splitWsAux cs (c :: acc)

def splitWs (s : List Char) : List (List Char) :=
  splitWsAux s []

/-- `' '.join(words)`. -/
def joinWords : List (List Char) → List Char
  | [] => []
  | [w] => w
  | w :: ws => w ++ ' ' :: joinWords ws

end SqlGate

namespace SqlGate

/-! ### Peel-style equations for `splitWs` -/

theorem splitWsAux_acc (s : List Char) :
    ∀ acc, acc ≠ [] →
      splitWsAux s acc =
        (acc.reverse ++ s.takeWhile (fun d => !pyIsSpace d)) ::
          splitWs (s.dropWhile (fun d => !pyIsSpace d)) := by
  induction s with
  | nil =>
    intro acc hacc
    simp [splitWsAux, splitWs, List.isEmpty_iff, hacc]
  | cons c cs ih =>
    intro acc hacc
    by_cases hc : pyIsSpace c
    · have hnc : (fun d => !pyIsSpace d) c = false := by simp [hc]
      simp only [splitWsAux, hc, if_pos, List.isEmpty_iff, hacc, if_neg,
        List.takeWhile_cons, hnc]
      simp only [splitWs, hacc, List.dropWhile_cons, hnc, Bool.false_eq_true,
        if_false, List.append_nil, if_neg, List.cons.injEq, true_and]
      conv_rhs => rw [splitWsAux]
      simp [hc]
    · have hnc : (fun d => !pyIsSpace d) c = true := by simp [hc]
      simp only [splitWsAux, hc, if_neg, not_false_iff]
      rw [ih (c :: acc) (by simp)]
      simp [List.takeWhile_cons, List.dropWhile_cons, hnc]

theorem splitWs_nil : splitWs ([] : List Char) = [] := rfl

theorem splitWs_cons_space {c : Char} (hc : pyIsSpace c = true) (cs : List Char) :
    splitWs (c :: cs) = splitWs cs := by
  simp [splitWs, splitWsAux, hc]

theorem splitWs_cons_nonspace {c : Char} (hc : pyIsSpace c = false) (cs : List Char) :
    splitWs (c :: cs) =
      ((c :: cs).takeWhile (fun d => !pyIsSpace d)) ::
        splitWs ((c :: cs).dropWhile (fun d => !pyIsSpace d)) := by
  have h1 : splitWs (c :: cs) = splitWsAux cs [c] := by
    simp [splitWs, splitWsAux, hc]
  rw [h1, splitWsAux_acc cs [c] (by simp)]
  simp [List.takeWhile_cons, List.dropWhile_cons, hc]

/-! ### Regex scans

The validator uses `re.search`.  Three shapes occur:
* `\bKW\b` with `KW` a run of word characters (the dangerous-keyword scan
  and `\bLOAD_FILE\b`): `containsWord`;
* `\bLIT` with `LIT` starting with a word character (`\bEXEC\(`, `\bSYS\.`,
  `\bxp_`): `containsLB`;
* a plain literal (`--`, `/\*`): `containsSub`.
`;\s*(?:INSERT|...)` and `\bINTO\s+OUTFILE\b` get dedicated scans.
All case-insensitive searches are performed on the uppercased text with
uppercased literals, which is equivalent on the ASCII range. -/

/-- Is the position at the head of `s` a right word boundary (end of text or
a non-word character)? -/
def rightBdry : List Char → Bool
  | [] => true
  | c :: _ => !isWordChar c

/-- Does `\bKW\b` match at the head of `s` (for `kw` a nonempty run of word
characters, the left boundary being handled by the caller)? -/
def matchKwBdry (kw s : List Char) : Bool :=
  kw.isPrefixOf s && rightBdry (s.drop kw.length)

/-- Scan for `\bkw\b`; `prev` records whether the previous character was a
word character (so that the left boundary can be decided). -/
def cwAux (kw : List Char) : Bool → List Char → Bool
  | _, [] => false
  | prev, c :: cs => (!prev && matchKwBdry kw (c :: cs)) || cwAux kw (isWordChar c) cs

/-- `re.search(r'\b' + kw + r'\b', s)` for `kw` a run of word characters. -/
def containsWord (kw s : List Char) : Bool := cwAux kw false s

/-- `re.search` for a plain literal: substring containment. -/
def containsSub (pat : List Char) : List Char → Bool
  | [] => pat.isEmpty
  | c :: cs => pat.isPrefixOf (c :: cs) || containsSub pat cs

def clbAux (pat : List Char) : Bool → List Char → Bool
  | _, [] => false
  | prev, c :: cs => (!prev && pat.isPrefixOf (c :: cs)) || clbAux pat (isWordChar c) cs

/-- `re.search(r'\b' + pat, s)` for `pat` beginning with a word character. -/
def containsLB (pat s : List Char) : Bool := clbAux pat false s

/-- The statement keywords of the stacked-statements pattern
`;\s*(?:INSERT|UPDATE|DELETE|DROP|ALTER|CREATE|TRUNCATE)`. -/
def STACKED_KEYWORDS : List String :=
  ["INSERT", "UPDATE", "DELETE", "DROP", "ALTER", "CREATE", "TRUNCATE"]

/-- After a `;`, does `\s*(?:INSERT|...)` match?  Since every alternative
starts with a letter, the regex matches iff one of the keywords starts right
after the maximal run of whitespace. -/
def stackedAfter (cs : List Char) : Bool :=
  STACKED_KEYWORDS.any (fun k => k.toList.isPrefixOf (cs.dropWhile pyIsSpace))

/-- `re.search(r';\s*(?:INSERT|UPDATE|DELETE|DROP|ALTER|CREATE|TRUNCATE)', s)`. -/
def pat1Aux : List Char → Bool
  | [] => false
  | c :: cs => (c == ';' && stackedAfter cs) || pat1Aux cs

/-- `OUTFILE\b` at the head of `r`. -/
def outfileTail (r : List Char) : Bool :=
  "OUTFILE".toList.isPrefixOf r && rightBdry (r.drop 7)

/-- `INTO\s+OUTFILE\b` at the head of `s`: the literal `INTO`, at least one
whitespace character, then `OUTFILE\b` (again, `OUTFILE` starts with a
letter, so the regex's `\s+` necessarily ends at the maximal whitespace
run). -/
def intoOutfileAt (s : List Char) : Bool :=
  "INTO".toList.isPrefixOf s &&
    (match s.drop 4 with
     | [] => false
     | d :: ds => pyIsSpace d && outfileTail ((d :: ds).dropWhile pyIsSpace))

/-- Scan for `\bINTO\s+OUTFILE\b`. -/
def pat4Aux : Bool → List Char → Bool
  | _, [] => false
  | prev, c :: cs => (!prev && intoOutfileAt (c :: cs)) || pat4Aux (isWordChar c) cs

/-! ### `sql_validator.py` -/

/-- `WRITE_OPERATIONS` (sql_validator.py line 13). -/
def WRITE_OPERATIONS : List String := ["INSERT", "UPDATE", "DELETE"]

/-- `DANGEROUS_KEYWORDS` (sql_validator.py lines 16-20). -/
def DANGEROUS_KEYWORDS : List String :=
  ["DROP", "ALTER", "CREATE", "TRUNCATE", "REPLACE", "MERGE",
   "GRANT", "REVOKE", "EXECUTE", "EXEC", "CALL", "BEGIN",
   "COMMIT", "ROLLBACK", "RENAME", "CASCADE"]

/-- The `DANGEROUS_PATTERNS` scan (sql_validator.py lines 23-32, 67-70):
each of the eight patterns searched case-insensitively over the raw text,
embedded as scans over the uppercased text. -/
def hasDangerousPattern (sql : List Char) : Bool :=
  let u := upperL sql
  pat1Aux u || containsSub "--".toList u || containsSub "/*".toList u ||
    pat4Aux false u || containsWord "LOAD_FILE".toList u ||
    containsLB "EXEC(".toList u || containsLB "SYS.".toList u ||
    containsLB "XP_".toList u

/-- `allowed_starts = ['SELECT'] + WRITE_OPERATIONS` (line 56). -/
def allowed_starts : List String := "SELECT" :: WRITE_OPERATIONS

/-- `SQLValidator.is_safe_query` (sql_validator.py lines 38-82).
Returns `(is_safe, error_message)`. -/
def isSafeQuery (sql : List Char) : Bool × String :=
  if strip sql = [] then (false, "Empty query provided")
  else
    let sql_upper := strip (upperL sql)
    if !(allowed_starts.any (fun op => op.toList.isPrefixOf sql_upper)) then
      (false, "Query must start with one of: " ++ String.intercalate ", " allowed_starts)
    else
      match DANGEROUS_KEYWORDS.find? (fun kw => containsWord kw.toList sql_upper) with
      | some kw => (false, "Query contains forbidden keyword: " ++ kw)
      | none =>
        if hasDangerousPattern sql then
          (false, "Query contains forbidden pattern or syntax")
        else
          let n := sql.count ';'
          if n > 1 then (false, "Multiple SQL statements are not allowed")
          else if n == 1 && !((strip sql).getLast? == some ';') then
            (false, "Semicolon found in middle of query")
          else (true, "")

/-- Lines 96-98 of sql_validator.py: `if sql.endswith(';'): sql = sql[:-1].strip()`. -/
def stripSemi (s : List Char) : List Char :=
  if s.getLast? == some ';' then strip s.dropLast else s

/-- `SQLValidator.sanitize_query` (sql_validator.py lines 84-103): strip,
drop one trailing semicolon (restripping), collapse whitespace runs via
`' '.join(sql.split())`. -/
def sanitize_query (sql : List Char) : List Char :=
  let s := strip sql
  let s := stripSemi s
  joinWords (splitWs s)

/-- `SQLValidator.get_query_type` (sql_validator.py lines 105-127). -/
def get_query_type (sql : List Char) : String :=
  let u := strip (upperL sql)
  if "SELECT".toList.isPrefixOf u then "SELECT"
  else if "INSERT".toList.isPrefixOf u then "INSERT"
  else if "UPDATE".toList.isPrefixOf u then "UPDATE"
  else if "DELETE".toList.isPrefixOf u then "DELETE"
  else "UNKNOWN"

/-- `SQLValidator.is_write_operation` (sql_validator.py lines 129-141). -/
def is_write_operation (sql : List Char) : Bool :=
  WRITE_OPERATIONS.contains (get_query_type sql)

/-- `SQLValidator.validate_and_sanitize` (sql_validator.py lines 143-160).
Returns `(is_safe, sanitized_sql, error_message)`; on failure the sanitized
text is the empty string, as in the source. -/
def validate_and_sanitize (sql : List Char) : Bool × List Char × String :=
  let r := isSafeQuery sql
  if !r.1 then (false, [], r.2)
  else (true, sanitize_query sql, "")

/-! ### `nl2sql_service.py` and the `nl2sql.py` endpoint

The datastore and the LLM generator are external collaborators: the engine
is a function from the executed statement text to a `DbOutcome` (a result
set, a raised `SQLAlchemyError`, or any other raised exception), the
generator a function from the question to the raw completion text.  Each
executor model additionally returns the trace of statement texts handed to
the engine, so that "no statement is sent to the datastore" is statable. -/

/-- A result row: ordered column-name/value pairs. -/
abbrev Row := List (String × String)

/-- Outcome of `connection.execute` on the external engine. -/
inductive DbOutcome where
  | ok (rows : List Row) (cols : List String) (rowcount : Nat)
  | sqlErr (msg : String)
  | otherErr (msg : String)

/-- The dictionary returned by `NL2SQLService.execute_sql`; `none` models an
absent key or a `None` value. -/
structure ExecResult where
  success : Bool
  data : Option (List Row) := none
  row_count : Option Nat := none
  columns : Option (List String) := none
  rows_affected : Option Nat := none
  query_type : Option String := none
  message : Option String := none
  error : Option String := none
deriving Repr, DecidableEq

/-- `NL2SQLService.execute_sql` (nl2sql_service.py lines 181-259):
re-validate, execute the sanitized statement, commit and shape a write
result for `INSERT`/`UPDATE`/`DELETE`, shape a read result for `SELECT`;
`SQLAlchemyError` and any other exception are caught and shaped into
failure dictionaries.  Also returns the list of statements handed to the
engine. -/
def execute_sql (db : List Char → DbOutcome) (sql : List Char) :
    ExecResult × List (List Char) :=
  let v := validate_and_sanitize sql
  if !v.1 then
    ({ success := false,
       error := some ("Query failed safety validation: " ++ v.2.2) }, [])
  else
    let sanitized := v.2.1
    let query_type := get_query_type sanitized
    match db sanitized with
    | DbOutcome.ok rows cols rowcount =>
      if ["INSERT", "UPDATE", "DELETE"].contains query_type then
        ({ success := true, data := some [], row_count := some 0,
           columns := some [], rows_affected := some rowcount,
           query_type := some query_type,
           message := some (query_type ++ " successful: " ++
             toString rowcount ++ " row(s) affected") }, [sanitized])
      else
        ({ success := true, data := some rows, row_count := some rows.length,
           columns := some cols, rows_affected := some 0,
           query_type := some "SELECT" }, [sanitized])
    | DbOutcome.sqlErr m =>
      ({ success := false, error := some ("Database error: " ++ m) }, [sanitized])
    | DbOutcome.otherErr m =>
      ({ success := false, error := some ("Execution error: " ++ m) }, [sanitized])

/-- Result dictionary of `NL2SQLService.generate_sql`. -/
inductive GenResult where
  | ok (sql : List Char)
  | fail (error : String) (sql : Option (List Char))
deriving Repr, DecidableEq

/-- The markdown-fence and whitespace post-processing that `generate_sql`
applies to the raw completion (nl2sql_service.py lines 131-144): strip, drop
a leading ```sql or ``` fence, drop a trailing ``` fence, strip again. -/
def genProcessed (gen : List Char → List Char) (question : List Char) : List Char :=
  let sql := strip (gen question)
  let sql :=
    if "```sql".toList.isPrefixOf sql then sql.drop 6
    else if "```".toList.isPrefixOf sql then sql.drop 3
    else sql
  let sql := if "```".toList.isSuffixOf sql then sql.take (sql.length - 3) else sql
  strip sql

/-- `NL2SQLService.generate_sql` (nl2sql_service.py lines 87-179): invoke
the generator, post-process the completion, reject an `ERROR:` completion,
validate and sanitize; on success the returned `sql` is the sanitized
text. -/
def generate_sql (gen : List Char → List Char) (question : List Char) : GenResult :=
  let sql := genProcessed gen question
  if "ERROR:".toList.isPrefixOf sql then GenResult.fail (String.mk sql) none
  else
    let v := validate_and_sanitize sql
    if !v.1 then
      GenResult.fail ("Generated query failed safety validation: " ++ v.2.2) (some sql)
    else GenResult.ok v.2.1

/-- The `NL2SQLResponse` model of the endpoint (nl2sql.py lines 34-62); the
same record also models the dictionary returned by `process_nl_query`. -/
structure NLResponse where
  success : Bool
  question : List Char
  sql : Option (List Char) := none
  data : Option (List Row) := none
  row_count : Option Nat := none
  columns : Option (List String) := none
  error : Option String := none
  rows_affected : Option Nat := none
  query_type : Option String := none
  message : Option String := none
  is_write_operation : Option Bool := none
deriving Repr, DecidableEq

/-- `NL2SQLService.process_nl_query` (nl2sql_service.py lines 261-296):
generate, then execute; the returned dictionary carries only `success`,
`question`, `sql`, `data`, `row_count`, `columns`, `error`. -/
def process_nl_query (gen : List Char → List Char) (db : List Char → DbOutcome)
    (question : List Char) : NLResponse × List (List Char) :=
  match generate_sql gen question with
  | GenResult.fail err s =>
    ({ success := false, question := question, sql := s, error := some err }, [])
  | GenResult.ok sql =>
    let r := execute_sql db sql
    ({ success := r.1.success, question := question, sql := some sql,
       data := r.1.data, row_count := r.1.row_count, columns := r.1.columns,
       error := r.1.error }, r.2)

/-- The `nl_to_sql` endpoint (nl2sql.py lines 84-158): generate once to
classify; a write statement without `confirm` yields a preview response and
stops; otherwise run the full pipeline and tag `is_write_operation`. -/
def nl_to_sql (gen : List Char → List Char) (db : List Char → DbOutcome)
    (question : List Char) (confirm : Bool) : NLResponse × List (List Char) :=
  match generate_sql gen question with
  | GenResult.fail err s =>
    ({ success := false, question := question, sql := s, error := some err }, [])
  | GenResult.ok sql =>
    let is_write := is_write_operation sql
    let query_type := get_query_type sql
    if is_write && !confirm then
      ({ success := true, question := question, sql := some sql,
         is_write_operation := some true, query_type := some query_type,
         message := some ("⚠️ This is a " ++ query_type ++
           " operation. Please review and confirm execution.") }, [])
    else
      let r := process_nl_query gen db question
      ({ r.1 with is_write_operation := some is_write }, r.2)

/-- The confirmation gate of the endpoint (nl2sql.py line 131): the decision
`is_write and not request.confirm`. -/
def requires_confirmation (sql : List Char) (confirm : Bool) : Bool :=
  is_write_operation sql && !confirm

/-! ### Character-level lemmas -/

theorem not_space_of_ge {c : Char} (h : 48 ≤ c.toNat) : pyIsSpace c = false := by
  simp only [pyIsSpace, Bool.or_eq_false_iff, beq_eq_false_iff_ne, ne_eq]
  refine ⟨⟨⟨⟨⟨?_, ?_⟩, ?_⟩, ?_⟩, ?_⟩, ?_⟩ <;> rintro rfl <;> revert h <;> decide

theorem wordChar_not_space {c : Char} (h : isWordChar c = true) : pyIsSpace c = false := by
  by_contra hs
  rw [Bool.not_eq_false] at hs
  simp only [pyIsSpace, Bool.or_eq_true, beq_iff_eq] at hs
  rcases hs with ((((rfl | rfl) | rfl) | rfl) | rfl) | rfl <;> exact absurd h (by decide)

theorem toNat_toUpper (c : Char) :
    c.toUpper.toNat = if 97 ≤ c.toNat ∧ c.toNat ≤ 122 then c.toNat - 32 else c.toNat := by
  rw [Char.toUpper]
  split
  · rename_i h
    rw [Char.ofNat, dif_pos (Or.inl (by omega : c.toNat - 32 < 55296))]
    rfl
  · rfl

theorem toUpper_of_not_lower {c : Char} (h : ¬(97 ≤ c.toNat ∧ c.toNat ≤ 122)) :
    c.toUpper = c := by
  rw [Char.toUpper, if_neg (by exact fun hc => h ⟨hc.1, hc.2⟩)]

theorem pyIsSpace_toUpper (c : Char) : pyIsSpace c.toUpper = pyIsSpace c := by
  by_cases hc : 97 ≤ c.toNat ∧ c.toNat ≤ 122
  · have h1 : pyIsSpace c = false := not_space_of_ge (le_trans (by decide) hc.1)
    have h2 : pyIsSpace c.toUpper = false := by
      apply not_space_of_ge
      rw [toNat_toUpper, if_pos hc]
      omega
    rw [h1, h2]
  · rw [toUpper_of_not_lower hc]

theorem length_dropWhile_le_self (p : Char → Bool) (l : List Char) :
    (l.dropWhile p).length ≤ l.length := by
  induction l with
  | nil => simp
  | cons c cs ih =>
    rw [List.dropWhile_cons]
    split
    · exact le_trans ih (by simp)
    · exact le_refl _

/-! ### `splitWs` infrastructure -/

theorem splitWs_eq_nil_iff (s : List Char) :
    splitWs s = [] ↔ ∀ c ∈ s, pyIsSpace c = true := by
  induction s with
  | nil => simp [splitWs_nil]
  | cons c cs ih =>
    by_cases hc : pyIsSpace c
    · rw [splitWs_cons_space hc]
      simp [ih, hc]
    · rw [splitWs_cons_nonspace (by simpa using hc)]
      simp only [List.cons_ne_nil, false_iff]
      intro h
      exact hc (h c (by simp))

theorem takeWhile_nonspace_of_allspace {t : List Char}
    (ht : ∀ c ∈ t, pyIsSpace c = true) :
    t.takeWhile (fun d => !pyIsSpace d) = [] := by
  cases t with
  | nil => rfl
  | cons d ds => simp [List.takeWhile_cons, ht d (by simp)]

theorem dropWhile_nonspace_of_allspace {t : List Char}
    (ht : ∀ c ∈ t, pyIsSpace c = true) :
    t.dropWhile (fun d => !pyIsSpace d) = t := by
  cases t with
  | nil => rfl
  | cons d ds => simp [List.dropWhile_cons, ht d (by simp)]

theorem splitWs_append_allspace (t : List Char) (ht : ∀ c ∈ t, pyIsSpace c = true)
    (s : List Char) : splitWs (s ++ t) = splitWs s := by
  suffices H : ∀ n (s : List Char), s.length ≤ n → splitWs (s ++ t) = splitWs s from
    H s.length s le_rfl
  intro n
  induction n with
  | zero =>
    intro s hs
    rw [List.length_eq_zero.1 (Nat.le_zero.1 hs)]
    rw [List.nil_append, splitWs_nil, splitWs_eq_nil_iff]
    exact ht
  | succ n ih =>
    intro s hs
    match s with
    | [] =>
      rw [List.nil_append, splitWs_nil, splitWs_eq_nil_iff]
      exact ht
    | c :: cs =>
      have hcs : cs.length ≤ n := by
        simp only [List.length_cons] at hs
        omega
      by_cases hc : pyIsSpace c
      · rw [List.cons_append, splitWs_cons_space hc, splitWs_cons_space hc]
        exact ih cs hcs
      · rw [List.cons_append, splitWs_cons_nonspace (by simpa using hc),
          splitWs_cons_nonspace (by simpa using hc), ← List.cons_append]
        by_cases hall : ∀ a ∈ c :: cs, (fun d => !pyIsSpace d) a = true
        · rw [List.takeWhile_append_of_pos hall, List.dropWhile_append_of_pos hall,
            takeWhile_nonspace_of_allspace ht, dropWhile_nonspace_of_allspace ht,
            List.append_nil, (splitWs_eq_nil_iff t).2 ht]
          have h1 : (c :: cs).takeWhile (fun d => !pyIsSpace d) = c :: cs :=
            List.takeWhile_eq_self_iff.2 hall
          have h3 : (c :: cs).dropWhile (fun d => !pyIsSpace d) = [] :=
            List.dropWhile_eq_nil_iff.2 hall
          rw [h1, h3, splitWs_nil]
        · have htw : ¬((c :: cs).takeWhile (fun d => !pyIsSpace d)).length = (c :: cs).length := by
            intro hlen
            apply hall
            intro a ha
            have hself : (c :: cs).takeWhile (fun d => !pyIsSpace d) = c :: cs :=
              (List.takeWhile_prefix _).eq_of_length hlen
            exact List.mem_takeWhile_imp (p := fun d => !pyIsSpace d) (by rw [hself]; exact ha)
          have hdw : ¬((c :: cs).dropWhile (fun d => !pyIsSpace d)).isEmpty = true := by
            simp only [List.isEmpty_iff, List.dropWhile_eq_nil_iff]
            intro h
            exact hall fun a ha => h a ha
          rw [List.takeWhile_append, if_neg htw, List.dropWhile_append, if_neg hdw]
          have hlt : ((c :: cs).dropWhile (fun d => !pyIsSpace d)).length ≤ n := by
            rw [List.dropWhile_cons, if_pos (by simpa using hc)]
            have h5 := length_dropWhile_le_self (fun d => !pyIsSpace d) cs
            omega
          rw [ih _ hlt]

theorem rstrip_decomp (s : List Char) :
    s = rstrip s ++ (s.reverse.takeWhile pyIsSpace).reverse ∧
      ∀ c ∈ (s.reverse.takeWhile pyIsSpace).reverse, pyIsSpace c = true := by
  constructor
  · rw [rstrip, ← List.reverse_append, List.takeWhile_append_dropWhile, List.reverse_reverse]
  · intro c hc
    exact List.mem_takeWhile_imp (List.mem_reverse.1 hc)

theorem splitWs_rstrip (s : List Char) : splitWs (rstrip s) = splitWs s := by
  obtain ⟨h1, h2⟩ := rstrip_decomp s
  conv_rhs => rw [h1]
  rw [splitWs_append_allspace _ h2]

theorem splitWs_lstrip (s : List Char) : splitWs (lstrip s) = splitWs s := by
  induction s with
  | nil => rfl
  | cons c cs ih =>
    by_cases hc : pyIsSpace c
    · rw [splitWs_cons_space hc, lstrip, List.dropWhile_cons, if_pos hc, ← lstrip, ih]
    · rw [lstrip, List.dropWhile_cons, if_neg (by simpa using hc)]

theorem splitWs_strip (s : List Char) : splitWs (strip s) = splitWs s := by
  rw [strip, splitWs_rstrip, splitWs_lstrip]

theorem blocks_props {s : List Char} :
    ∀ w ∈ splitWs s, w ≠ [] ∧ ∀ c ∈ w, pyIsSpace c = false := by
  suffices H : ∀ n (s : List Char), s.length ≤ n →
      ∀ w ∈ splitWs s, w ≠ [] ∧ ∀ c ∈ w, pyIsSpace c = false from
    H s.length s le_rfl
  intro n
  induction n with
  | zero =>
    intro s hs
    rw [List.length_eq_zero.1 (Nat.le_zero.1 hs), splitWs_nil]
    intro w hw
    exact absurd hw (List.not_mem_nil w)
  | succ n ih =>
    intro s hs
    match s with
    | [] =>
      rw [splitWs_nil]
      intro w hw
      exact absurd hw (List.not_mem_nil w)
    | c :: cs =>
      have hcs : cs.length ≤ n := by
        simp only [List.length_cons] at hs
        omega
      by_cases hc : pyIsSpace c
      · rw [splitWs_cons_space hc]
        exact ih cs hcs
      · rw [splitWs_cons_nonspace (by simpa using hc)]
        intro w hw
        rcases List.mem_cons.1 hw with rfl | hw2
        · constructor
          · rw [List.takeWhile_cons, if_pos (by simpa using hc)]
            exact List.cons_ne_nil _ _
          · intro a ha
            simpa using List.mem_takeWhile_imp ha
        · have hlt : ((c :: cs).dropWhile (fun d => !pyIsSpace d)).length ≤ n := by
            rw [List.dropWhile_cons, if_pos (by simpa using hc)]
            have h5 := length_dropWhile_le_self (fun d => !pyIsSpace d) cs
            omega
          exact ih _ hlt w hw2

theorem splitWs_single_block {w : List Char} (hne : w ≠ [])
    (hns : ∀ c ∈ w, pyIsSpace c = false) : splitWs w = [w] := by
  match w with
  | [] => exact absurd rfl hne
  | c :: cs =>
    have hc : pyIsSpace c = false := hns c (by simp)
    rw [splitWs_cons_nonspace hc]
    have hall : ∀ a ∈ c :: cs, (fun d => !pyIsSpace d) a = true := by
      intro a ha
      simp [hns a ha]
    have h1 : (c :: cs).takeWhile (fun d => !pyIsSpace d) = c :: cs :=
      List.takeWhile_eq_self_iff.2 hall
    have h3 : (c :: cs).dropWhile (fun d => !pyIsSpace d) = [] :=
      List.dropWhile_eq_nil_iff.2 hall
    rw [h1, h3, splitWs_nil]

theorem splitWs_join {ws : List (List Char)}
    (h : ∀ w ∈ ws, w ≠ [] ∧ ∀ c ∈ w, pyIsSpace c = false) :
    splitWs (joinWords ws) = ws := by
  induction ws with
  | nil => rfl
  | cons w ws ih =>
    match ws with
    | [] =>
      obtain ⟨hne, hns⟩ := h w (by simp)
      exact splitWs_single_block hne hns
    | w' :: ws' =>
      show splitWs (w ++ ' ' :: joinWords (w' :: ws')) = w :: w' :: ws'
      obtain ⟨hne, hns⟩ := h w (by simp)
      have hall : ∀ a ∈ w, (fun d => !pyIsSpace d) a = true := by
        intro a ha
        simp [hns a ha]
      match w with
      | [] => exact absurd rfl hne
      | c :: cs =>
        rw [List.cons_append, splitWs_cons_nonspace (by simpa using hns c (by simp)),
          ← List.cons_append, List.takeWhile_append_of_pos hall,
          List.dropWhile_append_of_pos hall]
        have h1 : (' ' :: joinWords (w' :: ws')).takeWhile (fun d => !pyIsSpace d) = [] := by
          rw [List.takeWhile_cons]
          simp [pyIsSpace]
        have h2 : (' ' :: joinWords (w' :: ws')).dropWhile (fun d => !pyIsSpace d) =
            ' ' :: joinWords (w' :: ws') := by
          rw [List.dropWhile_cons]
          simp [pyIsSpace]
        rw [h1, h2, List.append_nil, splitWs_cons_space (by simp [pyIsSpace]),
          ih (fun x hx => h x (by simp [hx]))]

theorem splitWs_upper (s : List Char) :
    splitWs (upperL s) = (splitWs s).map upperL := by
  suffices H : ∀ n (s : List Char), s.length ≤ n →
      splitWs (upperL s) = (splitWs s).map upperL from H s.length s le_rfl
  intro n
  induction n with
  | zero =>
    intro s hs
    rw [List.length_eq_zero.1 (Nat.le_zero.1 hs)]
    rfl
  | succ n ih =>
    intro s hs
    match s with
    | [] => rfl
    | c :: cs =>
      have hcs : cs.length ≤ n := by
        simp only [List.length_cons] at hs
        omega
      by_cases hc : pyIsSpace c
      · have hcu : pyIsSpace c.toUpper = true := by rw [pyIsSpace_toUpper]; exact hc
        rw [upperL, List.map_cons, splitWs_cons_space hcu, splitWs_cons_space hc, ← upperL]
        exact ih cs hcs
      · have hcu : pyIsSpace c.toUpper = false := by
          rw [pyIsSpace_toUpper]
          simpa using hc
        have hfun : ((fun d => !pyIsSpace d) ∘ Char.toUpper) = fun d => !pyIsSpace d := by
          funext d
          simp [pyIsSpace_toUpper]
        rw [upperL, List.map_cons, splitWs_cons_nonspace hcu,
          splitWs_cons_nonspace (by simpa using hc), ← List.map_cons,
          List.takeWhile_map, List.dropWhile_map, hfun, List.map_cons]
        have hlt : ((c :: cs).dropWhile (fun d => !pyIsSpace d)).length ≤ n := by
          rw [List.dropWhile_cons, if_pos (by simpa using hc)]
          have h5 := length_dropWhile_le_self (fun d => !pyIsSpace d) cs
          omega
        have hfold : List.map Char.toUpper ((c :: cs).dropWhile (fun d => !pyIsSpace d)) =
            upperL ((c :: cs).dropWhile (fun d => !pyIsSpace d)) := rfl
        rw [hfold, ih _ hlt]
        rfl

theorem splitWs_snoc {d : Char} (hd : pyIsSpace d = false) (u : List Char) :
    splitWs (u ++ [d]) = splitWs u ++ [[d]] ∨
      ∃ ws w, splitWs u = ws ++ [w] ∧ splitWs (u ++ [d]) = ws ++ [w ++ [d]] := by
  suffices H : ∀ n (u : List Char), u.length ≤ n →
      splitWs (u ++ [d]) = splitWs u ++ [[d]] ∨
        ∃ ws w, splitWs u = ws ++ [w] ∧ splitWs (u ++ [d]) = ws ++ [w ++ [d]] from
    H u.length u le_rfl
  intro n
  induction n with
  | zero =>
    intro u hu
    rw [List.length_eq_zero.1 (Nat.le_zero.1 hu)]
    left
    rw [List.nil_append, splitWs_nil, List.nil_append,
      splitWs_single_block (List.cons_ne_nil d []) (by simpa using hd)]
  | succ n ih =>
    intro u hu
    match u with
    | [] =>
      left
      rw [List.nil_append, splitWs_nil, List.nil_append,
        splitWs_single_block (List.cons_ne_nil d []) (by simpa using hd)]
    | c :: cs =>
      have hcs : cs.length ≤ n := by
        simp only [List.length_cons] at hu
        omega
      by_cases hc : pyIsSpace c
      · rw [List.cons_append, splitWs_cons_space hc, splitWs_cons_space hc]
        exact ih cs hcs
      · by_cases hall : ∀ a ∈ c :: cs, (fun e => !pyIsSpace e) a = true
        · right
          refine ⟨[], c :: cs, ?_, ?_⟩
          · rw [List.nil_append,
              splitWs_single_block (List.cons_ne_nil c cs) (by
                intro a ha
                simpa using hall a ha)]
          · rw [List.nil_append,
              splitWs_single_block (by simp) (by
                intro a ha
                rcases List.mem_append.1 ha with h1 | h1
                · simpa using hall a h1
                · rcases List.mem_singleton.1 h1 with rfl
                  exact hd)]
        · have htw : ¬((c :: cs).takeWhile (fun e => !pyIsSpace e)).length = (c :: cs).length := by
            intro hlen
            apply hall
            intro a ha
            have hself : (c :: cs).takeWhile (fun e => !pyIsSpace e) = c :: cs :=
              (List.takeWhile_prefix _).eq_of_length hlen
            exact List.mem_takeWhile_imp (p := fun e => !pyIsSpace e) (by rw [hself]; exact ha)
          have hdw : ¬((c :: cs).dropWhile (fun e => !pyIsSpace e)).isEmpty = true := by
            simp only [List.isEmpty_iff, List.dropWhile_eq_nil_iff]
            intro h
            exact hall fun a ha => h a ha
          rw [List.cons_append, splitWs_cons_nonspace (by simpa using hc),
            splitWs_cons_nonspace (by simpa using hc), ← List.cons_append,
            List.takeWhile_append, if_neg htw, List.dropWhile_append, if_neg hdw]
          have hlt : ((c :: cs).dropWhile (fun e => !pyIsSpace e)).length ≤ n := by
            rw [List.dropWhile_cons, if_pos (by simpa using hc)]
            have h5 := length_dropWhile_le_self (fun e => !pyIsSpace e) cs
            omega
          rcases ih _ hlt with h1 | ⟨ws, w, h2, h3⟩
          · left
            rw [h1, List.cons_append]
          · right
            exact ⟨(c :: cs).takeWhile (fun e => !pyIsSpace e) :: ws, w,
              by rw [h2, List.cons_append], by rw [h3, List.cons_append]⟩

/-- How the semicolon-stripping step of sanitization acts on the whitespace
blocks: either nothing changes, or a final `;`-only block disappears, or the
final block loses its trailing `;`. -/
theorem blocks_stripSemi (s : List Char) :
    splitWs (stripSemi s) = splitWs s ∨
      (∃ ws, splitWs s = ws ++ [[';']] ∧ splitWs (stripSemi s) = ws) ∨
      (∃ ws w, splitWs s = ws ++ [w ++ [';']] ∧ splitWs (stripSemi s) = ws ++ [w]) := by
  by_cases h : s.getLast? = some ';'
  · have hne : s ≠ [] := by
      intro hnil
      rw [hnil] at h
      simp at h
    have hdec : s.dropLast ++ [';'] = s := by
      have h1 := List.dropLast_append_getLast hne
      rwa [(List.getLast_eq_iff_getLast_eq_some hne).2 h] at h1
    have hss : stripSemi s = strip s.dropLast := by
      rw [stripSemi, if_pos (by simpa using h)]
    rw [hss, splitWs_strip]
    have hs2 : splitWs s = splitWs (s.dropLast ++ [';']) := by rw [hdec]
    rcases splitWs_snoc (by decide : pyIsSpace ';' = false) s.dropLast with h1 | ⟨ws, w, h2, h3⟩
    · right; left
      exact ⟨splitWs s.dropLast, by rw [hs2, h1], rfl⟩
    · right; right
      exact ⟨ws, w, by rw [hs2, h3], h2⟩
  · left
    rw [stripSemi, if_neg (by simpa using h)]

/-! ### Shape of `joinWords` output -/

theorem joinWords_ne_nil {ws : List (List Char)} (hws : ws ≠ [])
    (h : ∀ w ∈ ws, w ≠ []) : joinWords ws ≠ [] := by
  match ws with
  | [w] => exact h w (by simp)
  | w :: w' :: ws' =>
    show w ++ ' ' :: joinWords (w' :: ws') ≠ []
    simp

theorem joinWords_head? {ws : List (List Char)} (h : ∀ w ∈ ws, w ≠ []) :
    ∀ c, (joinWords ws).head? = some c → ∃ w ∈ ws, w.head? = some c := by
  match ws with
  | [] => intro c hc; simp [joinWords] at hc
  | [w] => intro c hc; exact ⟨w, by simp, hc⟩
  | w :: w' :: ws' =>
    intro c hc
    rw [show joinWords (w :: w' :: ws') = w ++ ' ' :: joinWords (w' :: ws') from rfl,
      List.head?_append_of_ne_nil w (h w (by simp))] at hc
    exact ⟨w, by simp, hc⟩

theorem joinWords_getLast? {ws : List (List Char)} (h : ∀ w ∈ ws, w ≠ []) :
    ∀ c, (joinWords ws).getLast? = some c → ∃ w ∈ ws, w.getLast? = some c := by
  match ws with
  | [] => intro c hc; simp [joinWords] at hc
  | [w] => intro c hc; exact ⟨w, by simp, hc⟩
  | w :: w' :: ws' =>
    intro c hc
    rw [show joinWords (w :: w' :: ws') = w ++ ' ' :: joinWords (w' :: ws') from rfl,
      List.getLast?_append] at hc
    have hjoin : (' ' :: joinWords (w' :: ws')).getLast? = (joinWords (w' :: ws')).getLast? := by
      have hne : joinWords (w' :: ws') ≠ [] := joinWords_ne_nil (by simp)
        (fun x hx => h x (by simp [hx]))
      match hj : joinWords (w' :: ws') with
      | [] => exact absurd hj hne
      | a :: l => rw [List.getLast?_cons, List.getLast?_cons]; simp
    rw [hjoin] at hc
    have hsome : (joinWords (w' :: ws')).getLast?.isSome = true := by
      have hne : joinWords (w' :: ws') ≠ [] := joinWords_ne_nil (by simp)
        (fun x hx => h x (by simp [hx]))
      exact List.getLast?_isSome.2 hne
    rw [Option.or_of_isSome hsome] at hc
    obtain ⟨w2, hw2, hc2⟩ := @joinWords_getLast? (w' :: ws')
      (fun x hx => h x (by simp [hx])) c hc
    exact ⟨w2, by simp [hw2], hc2⟩

theorem lstrip_eq_self {s : List Char}
    (h : ∀ c, s.head? = some c → pyIsSpace c = false) : lstrip s = s := by
  match s with
  | [] => rfl
  | c :: cs =>
    rw [lstrip, List.dropWhile_cons, if_neg]
    simp [h c rfl]

theorem rstrip_eq_self {s : List Char}
    (h : ∀ c, s.getLast? = some c → pyIsSpace c = false) : rstrip s = s := by
  rw [rstrip]
  have h2 : s.reverse.dropWhile pyIsSpace = s.reverse := by
    match hs : s.reverse with
    | [] => rfl
    | c :: cs =>
      rw [List.dropWhile_cons, if_neg]
      have hc : s.getLast? = some c := by
        rw [← List.head?_reverse, hs]
        rfl
      simp [h c hc]
  rw [h2, List.reverse_reverse]

theorem count_joinWords {x : Char} (hx : ¬x = ' ') (ws : List (List Char)) :
    (joinWords ws).count x = (ws.map (List.count x)).sum := by
  match ws with
  | [] => rfl
  | [w] => simp [joinWords]
  | w :: w' :: ws' =>
    have hsx : (' ' == x) = false := by
      rw [beq_eq_false_iff_ne]
      intro h
      exact hx h.symm
    rw [show joinWords (w :: w' :: ws') = w ++ ' ' :: joinWords (w' :: ws') from rfl,
      List.count_append, List.count_cons, count_joinWords hx (w' :: ws'), hsx]
    simp

theorem count_splitWs {x : Char} (hx : pyIsSpace x = false) (s : List Char) :
    ((splitWs s).map (List.count x)).sum = s.count x := by
  suffices H : ∀ n (s : List Char), s.length ≤ n →
      ((splitWs s).map (List.count x)).sum = s.count x from H s.length s le_rfl
  intro n
  induction n with
  | zero =>
    intro s hs
    rw [List.length_eq_zero.1 (Nat.le_zero.1 hs), splitWs_nil]
    rfl
  | succ n ih =>
    intro s hs
    match s with
    | [] => rw [splitWs_nil]; rfl
    | c :: cs =>
      have hcs : cs.length ≤ n := by
        simp only [List.length_cons] at hs
        omega
      by_cases hc : pyIsSpace c
      · have hcx : ¬c = x := by
          intro h
          rw [h, hx] at hc
          exact Bool.false_ne_true hc
        rw [splitWs_cons_space hc, List.count_cons, ih cs hcs]
        simp [hcx]
      · rw [splitWs_cons_nonspace (by simpa using hc)]
        have hlt : ((c :: cs).dropWhile (fun e => !pyIsSpace e)).length ≤ n := by
          rw [List.dropWhile_cons, if_pos (by simpa using hc)]
          have h5 := length_dropWhile_le_self (fun e => !pyIsSpace e) cs
          omega
        rw [List.map_cons, List.sum_cons, ih _ hlt]
        conv_rhs => rw [← List.takeWhile_append_dropWhile (fun e => !pyIsSpace e) (c :: cs)]
        rw [List.count_append]

theorem count_lstrip {x : Char} (hx : pyIsSpace x = false) (s : List Char) :
    (lstrip s).count x = s.count x := by
  conv_rhs => rw [← List.takeWhile_append_dropWhile pyIsSpace s]
  rw [List.count_append, lstrip]
  have h0 : (s.takeWhile pyIsSpace).count x = 0 := by
    rw [List.count_eq_zero]
    intro hmem
    have := List.mem_takeWhile_imp hmem
    rw [hx] at this
    exact Bool.false_ne_true this
  omega

theorem count_rstrip {x : Char} (hx : pyIsSpace x = false) (s : List Char) :
    (rstrip s).count x = s.count x := by
  obtain ⟨h1, h2⟩ := rstrip_decomp s
  conv_rhs => rw [h1]
  rw [List.count_append]
  have h0 : ((s.reverse.takeWhile pyIsSpace).reverse).count x = 0 := by
    rw [List.count_eq_zero]
    intro hmem
    have := h2 x hmem
    rw [hx] at this
    exact Bool.false_ne_true this
  omega

theorem count_strip {x : Char} (hx : pyIsSpace x = false) (s : List Char) :
    (strip s).count x = s.count x := by
  rw [strip, count_rstrip hx, count_lstrip hx]

/-- No two consecutive whitespace characters. -/
def noWsRun : List Char → Bool
  | a :: b :: r => !(pyIsSpace a && pyIsSpace b) && noWsRun (b :: r)
  | _ => true

theorem noWsRun_append {w r : List Char} (hw : ∀ c ∈ w, pyIsSpace c = false)
    (hr : noWsRun r = true) : noWsRun (w ++ r) = true := by
  induction w with
  | nil => simpa using hr
  | cons a w' ih =>
    have ha : pyIsSpace a = false := hw a (by simp)
    match w' with
    | [] =>
      match r with
      | [] => rfl
      | b :: r' =>
        show noWsRun (a :: b :: r') = true
        simp only [noWsRun, ha, Bool.false_and, Bool.not_false, Bool.true_and]
        exact hr
    | a' :: w'' =>
      show noWsRun (a :: a' :: (w'' ++ r)) = true
      simp only [noWsRun, ha, Bool.false_and, Bool.not_false, Bool.true_and]
      exact ih fun c hc => hw c (by simp [hc])

theorem noWsRun_joinWords {ws : List (List Char)}
    (h : ∀ w ∈ ws, w ≠ [] ∧ ∀ c ∈ w, pyIsSpace c = false) :
    noWsRun (joinWords ws) = true := by
  match ws with
  | [] => rfl
  | [w] =>
    have h2 := noWsRun_append (w := w) (r := []) (h w (by simp)).2 rfl
    simpa using h2
  | w :: w' :: ws' =>
    show noWsRun (w ++ ' ' :: joinWords (w' :: ws')) = true
    apply noWsRun_append (h w (by simp)).2
    have hrec := @noWsRun_joinWords (w' :: ws') fun x hx => h x (by simp [hx])
    match hj : joinWords (w' :: ws') with
    | [] => rfl
    | b :: r' =>
      show noWsRun (' ' :: b :: r') = true
      have hb : pyIsSpace b = false := by
        obtain ⟨w2, hw2, hh⟩ := @joinWords_head? (w' :: ws')
          (fun x hx => (h x (by simp [hx])).1) b (by rw [hj]; rfl)
        exact (h w2 (by simp [hw2])).2 b (List.mem_of_mem_head? (by simp [hh]))
      simp only [noWsRun, hb, Bool.and_false, Bool.not_false, Bool.true_and]
      rw [hj] at hrec
      exact hrec

/-! ### Prefix lemmas for the scans -/

/-- A pattern without whitespace cannot begin at a position whose text
continues only into trailing whitespace: being a prefix of `w ++ r` with
`r` empty or whitespace-headed is the same as being a prefix of `w`. -/
theorem isPrefixOf_append_spaceheaded {pat : List Char}
    (hpat : ∀ c ∈ pat, pyIsSpace c = false)
    {r : List Char} (hr : r = [] ∨ ∃ d r', r = d :: r' ∧ pyIsSpace d = true) :
    ∀ w, pat.isPrefixOf (w ++ r) = pat.isPrefixOf w := by
  induction pat with
  | nil => intro w; simp
  | cons p pt ih =>
    intro w
    match w with
    | [] =>
      rcases hr with rfl | ⟨d, r', rfl, hd⟩
      · rfl
      · show (p :: pt).isPrefixOf (d :: r') = (p :: pt).isPrefixOf []
        have hpd : (p == d) = false := by
          rw [beq_eq_false_iff_ne]
          intro h
          rw [h] at hpat
          exact Bool.false_ne_true ((hpat d (by simp)).symm.trans hd)
        show ((p == d) && pt.isPrefixOf r') = (p :: pt).isPrefixOf []
        rw [hpd]
        rfl
    | a :: w' =>
      show ((p == a) && pt.isPrefixOf (w' ++ r)) = ((p == a) && pt.isPrefixOf w')
      rw [ih (fun c hc => hpat c (by simp [hc])) w']

/-! ### Block characterization of the scans

Each scan only depends on the whitespace-separated blocks of the text (for
patterns without whitespace), or on adjacent pairs of blocks (for
`INTO\s+OUTFILE`).  This is the key to idempotence of sanitization. -/

theorem space_not_word {c : Char} (hc : pyIsSpace c = true) : isWordChar c = false := by
  cases hw : isWordChar c
  · rfl
  · rw [wordChar_not_space hw] at hc
    exact absurd hc (Bool.false_ne_true)

theorem head_ne_of_nonspace_space {p d : Char} (hp : pyIsSpace p = false)
    (hd : pyIsSpace d = true) : (p == d) = false := by
  rw [beq_eq_false_iff_ne]
  intro h
  rw [h, hd] at hp
  exact Bool.false_ne_true hp.symm

/-- Helper: the tail left by `dropWhile (!pyIsSpace)` is empty or starts
with whitespace. -/
theorem dropWhile_nonspace_head (l : List Char) :
    l.dropWhile (fun e => !pyIsSpace e) = [] ∨
      ∃ d r', l.dropWhile (fun e => !pyIsSpace e) = d :: r' ∧ pyIsSpace d = true := by
  induction l with
  | nil => exact Or.inl rfl
  | cons c cs ih =>
    rw [List.dropWhile_cons]
    by_cases hc : pyIsSpace c
    · rw [if_neg (by simp [hc])]
      exact Or.inr ⟨c, cs, rfl, hc⟩
    · rw [if_pos (by simp [hc])]
      exact ih

theorem cwAux_cons_space {kw : List Char} {p : Char} {pt : List Char}
    (hkw : kw = p :: pt) (hp : pyIsSpace p = false) {d : Char}
    (hd : pyIsSpace d = true) (b : Bool) (cs : List Char) :
    cwAux kw b (d :: cs) = cwAux kw false cs := by
  subst hkw
  show ((!b && matchKwBdry (p :: pt) (d :: cs)) || cwAux (p :: pt) (isWordChar d) cs) =
    cwAux (p :: pt) false cs
  rw [matchKwBdry, List.isPrefixOf_cons₂, head_ne_of_nonspace_space hp hd,
    space_not_word hd]
  simp

theorem matchKwBdry_append {kw : List Char} (hkw : ∀ c ∈ kw, pyIsSpace c = false)
    {r : List Char} (hr : r = [] ∨ ∃ d r', r = d :: r' ∧ pyIsSpace d = true)
    (w : List Char) : matchKwBdry kw (w ++ r) = matchKwBdry kw w := by
  rw [matchKwBdry, matchKwBdry, isPrefixOf_append_spaceheaded hkw hr w]
  cases hpre : kw.isPrefixOf w
  · simp
  · have hlen : kw.length ≤ w.length :=
      (List.isPrefixOf_iff_prefix.1 hpre).length_le
    rw [List.drop_append_of_le_length hlen]
    cases hdrop : w.drop kw.length with
    | nil =>
      rw [List.nil_append]
      rcases hr with rfl | ⟨d, r', rfl, hd⟩
      · rfl
      · show (true && rightBdry (d :: r')) = (true && rightBdry [])
        rw [rightBdry, rightBdry, space_not_word hd]
        rfl
    | cons e l => rfl

theorem cwAux_append_block {kw : List Char} {p : Char} {pt : List Char}
    (hkw : kw = p :: pt) (hns : ∀ c ∈ kw, pyIsSpace c = false)
    {r : List Char} (hr : r = [] ∨ ∃ d r', r = d :: r' ∧ pyIsSpace d = true) :
    ∀ (w : List Char) (b : Bool),
      cwAux kw b (w ++ r) = (cwAux kw b w || cwAux kw false r) := by
  intro w
  induction w with
  | nil =>
    intro b
    rcases hr with rfl | ⟨d, r', rfl, hd⟩
    · simp [cwAux]
    · rw [List.nil_append, cwAux_cons_space hkw (by rw [hkw] at hns; exact hns p (by simp)) hd,
        cwAux_cons_space hkw (by rw [hkw] at hns; exact hns p (by simp)) hd]
      simp [cwAux, hkw]
  | cons a w' ih =>
    intro b
    have h1 : cwAux kw b ((a :: w') ++ r) =
        ((!b && matchKwBdry kw ((a :: w') ++ r)) || cwAux kw (isWordChar a) (w' ++ r)) := rfl
    have h2 : cwAux kw b (a :: w') =
        ((!b && matchKwBdry kw (a :: w')) || cwAux kw (isWordChar a) w') := rfl
    rw [h1, h2, matchKwBdry_append hns hr (a :: w'), ih (isWordChar a), Bool.or_assoc]

theorem containsWord_blocks {kw : List Char} {p : Char} {pt : List Char}
    (hkw : kw = p :: pt) (hns : ∀ c ∈ kw, pyIsSpace c = false) (s : List Char) :
    containsWord kw s = (splitWs s).any (fun w => containsWord kw w) := by
  suffices H : ∀ n (s : List Char), s.length ≤ n →
      containsWord kw s = (splitWs s).any (fun w => containsWord kw w) from
    H s.length s le_rfl
  intro n
  induction n with
  | zero =>
    intro s hs
    rw [List.length_eq_zero.1 (Nat.le_zero.1 hs), splitWs_nil]
    rfl
  | succ n ih =>
    intro s hs
    match s with
    | [] => rw [splitWs_nil]; rfl
    | c :: cs =>
      have hcs : cs.length ≤ n := by
        simp only [List.length_cons] at hs
        omega
      by_cases hc : pyIsSpace c
      · rw [splitWs_cons_space hc, containsWord,
          cwAux_cons_space hkw (by rw [hkw] at hns; exact hns p (by simp)) hc, ← containsWord,
          ih cs hcs]
      · rw [splitWs_cons_nonspace (by simpa using hc), List.any_cons]
        have hlt : ((c :: cs).dropWhile (fun e => !pyIsSpace e)).length ≤ n := by
          rw [List.dropWhile_cons, if_pos (by simpa using hc)]
          have h5 := length_dropWhile_le_self (fun e => !pyIsSpace e) cs
          omega
        conv_lhs => rw [← List.takeWhile_append_dropWhile (fun e => !pyIsSpace e) (c :: cs)]
        rw [containsWord,
          cwAux_append_block hkw hns (dropWhile_nonspace_head (c :: cs)) _ false,
          ← containsWord, ← containsWord, ih _ hlt]

theorem containsSub_cons_space {pat : List Char} {p : Char} {pt : List Char}
    (hpat : pat = p :: pt) (hp : pyIsSpace p = false) {d : Char}
    (hd : pyIsSpace d = true) (cs : List Char) :
    containsSub pat (d :: cs) = containsSub pat cs := by
  subst hpat
  show ((p :: pt).isPrefixOf (d :: cs) || containsSub (p :: pt) cs) = _
  rw [List.isPrefixOf_cons₂, head_ne_of_nonspace_space hp hd]
  simp

theorem containsSub_append_block {pat : List Char} {p : Char} {pt : List Char}
    (hpat : pat = p :: pt) (hns : ∀ c ∈ pat, pyIsSpace c = false)
    {r : List Char} (hr : r = [] ∨ ∃ d r', r = d :: r' ∧ pyIsSpace d = true) :
    ∀ (w : List Char), containsSub pat (w ++ r) = (containsSub pat w || containsSub pat r) := by
  intro w
  induction w with
  | nil =>
    have hempty : containsSub pat [] = false := by rw [hpat]; rfl
    rw [List.nil_append, hempty, Bool.false_or]
  | cons a w' ih =>
    have h1 : containsSub pat ((a :: w') ++ r) =
        (pat.isPrefixOf ((a :: w') ++ r) || containsSub pat (w' ++ r)) := rfl
    have h2 : containsSub pat (a :: w') =
        (pat.isPrefixOf (a :: w') || containsSub pat w') := rfl
    rw [h1, h2, isPrefixOf_append_spaceheaded hns hr (a :: w'), ih, Bool.or_assoc]

theorem containsSub_blocks {pat : List Char} {p : Char} {pt : List Char}
    (hpat : pat = p :: pt) (hns : ∀ c ∈ pat, pyIsSpace c = false) (s : List Char) :
    containsSub pat s = (splitWs s).any (fun w => containsSub pat w) := by
  suffices H : ∀ n (s : List Char), s.length ≤ n →
      containsSub pat s = (splitWs s).any (fun w => containsSub pat w) from
    H s.length s le_rfl
  intro n
  induction n with
  | zero =>
    intro s hs
    rw [List.length_eq_zero.1 (Nat.le_zero.1 hs), splitWs_nil, hpat]
    rfl
  | succ n ih =>
    intro s hs
    match s with
    | [] => rw [splitWs_nil, hpat]; rfl
    | c :: cs =>
      have hcs : cs.length ≤ n := by
        simp only [List.length_cons] at hs
        omega
      by_cases hc : pyIsSpace c
      · rw [splitWs_cons_space hc,
          containsSub_cons_space hpat (by rw [hpat] at hns; exact hns p (by simp)) hc,
          ih cs hcs]
      · rw [splitWs_cons_nonspace (by simpa using hc), List.any_cons]
        have hlt : ((c :: cs).dropWhile (fun e => !pyIsSpace e)).length ≤ n := by
          rw [List.dropWhile_cons, if_pos (by simpa using hc)]
          have h5 := length_dropWhile_le_self (fun e => !pyIsSpace e) cs
          omega
        conv_lhs => rw [← List.takeWhile_append_dropWhile (fun e => !pyIsSpace e) (c :: cs)]
        rw [containsSub_append_block hpat hns (dropWhile_nonspace_head (c :: cs)), ih _ hlt]

theorem clbAux_cons_space {pat : List Char} {p : Char} {pt : List Char}
    (hpat : pat = p :: pt) (hp : pyIsSpace p = false) {d : Char}
    (hd : pyIsSpace d = true) (b : Bool) (cs : List Char) :
    clbAux pat b (d :: cs) = clbAux pat false cs := by
  subst hpat
  show ((!b && (p :: pt).isPrefixOf (d :: cs)) || clbAux (p :: pt) (isWordChar d) cs) = _
  rw [List.isPrefixOf_cons₂, head_ne_of_nonspace_space hp hd, space_not_word hd]
  simp

theorem clbAux_append_block {pat : List Char} {p : Char} {pt : List Char}
    (hpat : pat = p :: pt) (hns : ∀ c ∈ pat, pyIsSpace c = false)
    {r : List Char} (hr : r = [] ∨ ∃ d r', r = d :: r' ∧ pyIsSpace d = true) :
    ∀ (w : List Char) (b : Bool),
      clbAux pat b (w ++ r) = (clbAux pat b w || clbAux pat false r) := by
  intro w
  induction w with
  | nil =>
    intro b
    rcases hr with rfl | ⟨d, r', rfl, hd⟩
    · simp [clbAux]
    · rw [List.nil_append, clbAux_cons_space hpat (by rw [hpat] at hns; exact hns p (by simp)) hd,
        clbAux_cons_space hpat (by rw [hpat] at hns; exact hns p (by simp)) hd]
      simp [clbAux]
  | cons a w' ih =>
    intro b
    have h1 : clbAux pat b ((a :: w') ++ r) =
        ((!b && pat.isPrefixOf ((a :: w') ++ r)) || clbAux pat (isWordChar a) (w' ++ r)) := rfl
    have h2 : clbAux pat b (a :: w') =
        ((!b && pat.isPrefixOf (a :: w')) || clbAux pat (isWordChar a) w') := rfl
    rw [h1, h2, isPrefixOf_append_spaceheaded hns hr (a :: w'), ih (isWordChar a), Bool.or_assoc]

theorem containsLB_blocks {pat : List Char} {p : Char} {pt : List Char}
    (hpat : pat = p :: pt) (hns : ∀ c ∈ pat, pyIsSpace c = false) (s : List Char) :
    containsLB pat s = (splitWs s).any (fun w => containsLB pat w) := by
  suffices H : ∀ n (s : List Char), s.length ≤ n →
      containsLB pat s = (splitWs s).any (fun w => containsLB pat w) from
    H s.length s le_rfl
  intro n
  induction n with
  | zero =>
    intro s hs
    rw [List.length_eq_zero.1 (Nat.le_zero.1 hs), splitWs_nil]
    rfl
  | succ n ih =>
    intro s hs
    match s with
    | [] => rw [splitWs_nil]; rfl
    | c :: cs =>
      have hcs : cs.length ≤ n := by
        simp only [List.length_cons] at hs
        omega
      by_cases hc : pyIsSpace c
      · rw [splitWs_cons_space hc, containsLB,
          clbAux_cons_space hpat (by rw [hpat] at hns; exact hns p (by simp)) hc, ← containsLB,
          ih cs hcs]
      · rw [splitWs_cons_nonspace (by simpa using hc), List.any_cons]
        have hlt : ((c :: cs).dropWhile (fun e => !pyIsSpace e)).length ≤ n := by
          rw [List.dropWhile_cons, if_pos (by simpa using hc)]
          have h5 := length_dropWhile_le_self (fun e => !pyIsSpace e) cs
          omega
        conv_lhs => rw [← List.takeWhile_append_dropWhile (fun e => !pyIsSpace e) (c :: cs)]
        rw [containsLB,
          clbAux_append_block hpat hns (dropWhile_nonspace_head (c :: cs)) _ false,
          ← containsLB, ← containsLB, ih _ hlt]

/-- A text without semicolons cannot match the stacked-statements pattern. -/
theorem pat1Aux_semifree {s : List Char} (h : ¬ ';' ∈ s) : pat1Aux s = false := by
  induction s with
  | nil => rfl
  | cons c cs ih =>
    show ((c == ';' && stackedAfter cs) || pat1Aux cs) = false
    have hc : (c == ';') = false := by
      rw [beq_eq_false_iff_ne]
      intro hh
      exact h (by simp [hh])
    rw [hc, ih (fun hm => h (by simp [hm]))]
    rfl

/-! ### Block characterization of the `INTO\s+OUTFILE` scan -/

/-- `\bINTO` as a suffix of a block (the scan state at the end of the
block). -/
def endsIntoB : Bool → List Char → Bool
  | _, [] => false
  | prev, c :: cs => (!prev && ((c :: cs) == "INTO".toList)) || endsIntoB (isWordChar c) cs

/-- `\s+OUTFILE\b` at the head of the remaining text. -/
def outfileAfterSpaces : List Char → Bool
  | [] => false
  | d :: ds => pyIsSpace d && outfileTail ((d :: ds).dropWhile pyIsSpace)

def firstBlockOutfile : List (List Char) → Bool
  | [] => false
  | w :: _ => outfileTail w

/-- `\bINTO\s+OUTFILE\b` at the level of whitespace blocks. -/
def blockPat4 : List (List Char) → Bool
  | [] => false
  | w1 :: rest => (endsIntoB false w1 && firstBlockOutfile rest) || blockPat4 rest

theorem outfileTail_eq (r : List Char) :
    outfileTail r = matchKwBdry "OUTFILE".toList r := rfl

theorem intoOutfileAt_eq (s : List Char) :
    intoOutfileAt s = ("INTO".toList.isPrefixOf s && outfileAfterSpaces (s.drop 4)) := by
  rw [intoOutfileAt]
  cases s.drop 4 with
  | nil => rfl
  | cons d ds => rfl

theorem intoOutfileAt_block {w : List Char} (hw : ∀ c ∈ w, pyIsSpace c = false)
    {r : List Char} (hr : r = [] ∨ ∃ d r', r = d :: r' ∧ pyIsSpace d = true) :
    intoOutfileAt (w ++ r) = ((w == "INTO".toList) && outfileAfterSpaces r) := by
  rw [intoOutfileAt_eq,
    isPrefixOf_append_spaceheaded (by decide : ∀ c ∈ "INTO".toList, pyIsSpace c = false) hr w]
  cases hpre : "INTO".toList.isPrefixOf w
  · have hweq : (w == "INTO".toList) = false := by
      rw [beq_eq_false_iff_ne]
      intro hh
      rw [hh] at hpre
      rw [List.isPrefixOf_iff_prefix.2 (List.prefix_refl _)] at hpre
      exact Bool.false_ne_true hpre.symm
    rw [hweq]
    rfl
  · have hlen : 4 ≤ w.length := by
      have h1 := (List.isPrefixOf_iff_prefix.1 hpre).length_le
      simpa using h1
    rw [List.drop_append_of_le_length hlen]
    cases hdrop : w.drop 4 with
    | nil =>
      have hweq : w = "INTO".toList := by
        have hl4 : w.length ≤ 4 := by
          have := List.drop_eq_nil_iff.1 hdrop
          simpa using this
        exact ((List.isPrefixOf_iff_prefix.1 hpre).eq_of_length (by simpa using le_antisymm hl4 hlen |>.symm)).symm
      rw [List.nil_append, hweq]
      simp
    | cons e l =>
      have he : pyIsSpace e = false := by
        apply hw
        exact List.drop_subset 4 w (by rw [hdrop]; simp)
      have hweq : (w == "INTO".toList) = false := by
        rw [beq_eq_false_iff_ne]
        intro hh
        rw [hh] at hdrop
        simp at hdrop
      rw [hweq, List.cons_append]
      show (true && outfileAfterSpaces (e :: (l ++ r))) = (false && outfileAfterSpaces r)
      rw [show outfileAfterSpaces (e :: (l ++ r)) =
        (pyIsSpace e && outfileTail ((e :: (l ++ r)).dropWhile pyIsSpace)) from rfl, he]
      rfl

theorem pat4Aux_cons_space {d : Char} (hd : pyIsSpace d = true) (b : Bool) (cs : List Char) :
    pat4Aux b (d :: cs) = pat4Aux false cs := by
  show ((!b && intoOutfileAt (d :: cs)) || pat4Aux (isWordChar d) cs) = _
  have h1 : intoOutfileAt (d :: cs) = false := by
    rw [intoOutfileAt_eq, show "INTO".toList = 'I' :: ['N', 'T', 'O'] from rfl,
      List.isPrefixOf_cons₂, head_ne_of_nonspace_space (by decide) hd]
    rfl
  rw [h1, space_not_word hd]
  simp

theorem pat4Aux_append_block {w : List Char} (hw : ∀ c ∈ w, pyIsSpace c = false)
    {r : List Char} (hr : r = [] ∨ ∃ d r', r = d :: r' ∧ pyIsSpace d = true) :
    ∀ b, pat4Aux b (w ++ r) = ((endsIntoB b w && outfileAfterSpaces r) || pat4Aux false r) := by
  induction w with
  | nil =>
    intro b
    show pat4Aux b r = ((false && outfileAfterSpaces r) || pat4Aux false r)
    rcases hr with rfl | ⟨d, r', rfl, hd⟩
    · simp [pat4Aux]
    · rw [pat4Aux_cons_space hd, pat4Aux_cons_space hd]
      simp
  | cons a w' ih =>
    intro b
    have h1 : pat4Aux b ((a :: w') ++ r) =
        ((!b && intoOutfileAt ((a :: w') ++ r)) || pat4Aux (isWordChar a) (w' ++ r)) := rfl
    have h2 : endsIntoB b (a :: w') =
        ((!b && ((a :: w') == "INTO".toList)) || endsIntoB (isWordChar a) w') := rfl
    rw [h1, h2, intoOutfileAt_block hw hr, ih (fun c hc => hw c (by simp [hc])) (isWordChar a),
      Bool.and_or_distrib_right, ← Bool.and_assoc, Bool.or_assoc]

theorem lstrip_head (l : List Char) :
    lstrip l = [] ∨ ∃ e q', lstrip l = e :: q' ∧ pyIsSpace e = false := by
  induction l with
  | nil => exact Or.inl rfl
  | cons c cs ih =>
    rw [lstrip, List.dropWhile_cons]
    by_cases hc : pyIsSpace c
    · rw [if_pos hc]
      exact ih
    · rw [if_neg hc]
      exact Or.inr ⟨c, cs, rfl, by simpa using hc⟩

theorem outfileAfterSpaces_blocks {r : List Char}
    (hr : r = [] ∨ ∃ d r', r = d :: r' ∧ pyIsSpace d = true) :
    outfileAfterSpaces r = firstBlockOutfile (splitWs r) := by
  rcases hr with rfl | ⟨d, r', rfl, hd⟩
  · rfl
  · show (pyIsSpace d && outfileTail ((d :: r').dropWhile pyIsSpace)) = _
    rw [hd, Bool.true_and, show (d :: r').dropWhile pyIsSpace = lstrip (d :: r') from rfl,
      ← splitWs_lstrip (d :: r')]
    rcases lstrip_head (d :: r') with hq | ⟨e, q', hq, he⟩
    · rw [hq, splitWs_nil]
      rfl
    · rw [hq, splitWs_cons_nonspace he]
      show outfileTail (e :: q') = outfileTail ((e :: q').takeWhile (fun x => !pyIsSpace x))
      conv_lhs => rw [← List.takeWhile_append_dropWhile (fun x => !pyIsSpace x) (e :: q')]
      rw [outfileTail_eq, outfileTail_eq,
        matchKwBdry_append (by decide : ∀ c ∈ "OUTFILE".toList, pyIsSpace c = false)
          (dropWhile_nonspace_head (e :: q'))]

theorem pat4_blocks (s : List Char) : pat4Aux false s = blockPat4 (splitWs s) := by
  suffices H : ∀ n (s : List Char), s.length ≤ n → pat4Aux false s = blockPat4 (splitWs s) from
    H s.length s le_rfl
  intro n
  induction n with
  | zero =>
    intro s hs
    rw [List.length_eq_zero.1 (Nat.le_zero.1 hs), splitWs_nil]
    rfl
  | succ n ih =>
    intro s hs
    match s with
    | [] => rw [splitWs_nil]; rfl
    | c :: cs =>
      have hcs : cs.length ≤ n := by
        simp only [List.length_cons] at hs
        omega
      by_cases hc : pyIsSpace c
      · rw [splitWs_cons_space hc, pat4Aux_cons_space hc, ih cs hcs]
      · rw [splitWs_cons_nonspace (by simpa using hc)]
        have hlt : ((c :: cs).dropWhile (fun e => !pyIsSpace e)).length ≤ n := by
          rw [List.dropWhile_cons, if_pos (by simpa using hc)]
          have h5 := length_dropWhile_le_self (fun e => !pyIsSpace e) cs
          omega
        have htw : ∀ x ∈ (c :: cs).takeWhile (fun e => !pyIsSpace e), pyIsSpace x = false := by
          intro x hx
          simpa using List.mem_takeWhile_imp hx
        conv_lhs => rw [← List.takeWhile_append_dropWhile (fun e => !pyIsSpace e) (c :: cs)]
        rw [pat4Aux_append_block htw (dropWhile_nonspace_head (c :: cs)) false,
          outfileAfterSpaces_blocks (dropWhile_nonspace_head (c :: cs)), ih _ hlt]
        rfl

/-! ### Appending the dropped `;` to the last block cannot create a match -/

theorem isPrefixOf_snoc {pat : List Char} {d : Char} (hd : ¬d ∈ pat) (w : List Char) :
    pat.isPrefixOf (w ++ [d]) = pat.isPrefixOf w := by
  cases h2 : pat.isPrefixOf w
  · cases h1 : pat.isPrefixOf (w ++ [d])
    · rfl
    · exfalso
      rcases List.prefix_concat_iff.1 (List.isPrefixOf_iff_prefix.1 h1) with heq | hpre
      · exact hd (by rw [heq]; simp)
      · rw [List.isPrefixOf_iff_prefix.2 hpre] at h2
        exact Bool.false_ne_true h2.symm
  · exact List.isPrefixOf_iff_prefix.2
      ((List.isPrefixOf_iff_prefix.1 h2).trans (w.prefix_append [d]))

theorem not_mem_of_allWord {pat : List Char} (hw : ∀ c ∈ pat, isWordChar c = true)
    {d : Char} (hd : isWordChar d = false) : ¬d ∈ pat := by
  intro hmem
  rw [hw d hmem] at hd
  exact Bool.false_ne_true hd.symm

theorem matchKwBdry_snoc {kw : List Char} (hkw : ∀ c ∈ kw, isWordChar c = true)
    {d : Char} (hd : isWordChar d = false) (w : List Char) :
    matchKwBdry kw (w ++ [d]) = matchKwBdry kw w := by
  rw [matchKwBdry, matchKwBdry, isPrefixOf_snoc (not_mem_of_allWord hkw hd) w]
  cases hpre : kw.isPrefixOf w
  · simp
  · have hlen : kw.length ≤ w.length :=
      (List.isPrefixOf_iff_prefix.1 hpre).length_le
    rw [List.drop_append_of_le_length hlen]
    cases hdrop : w.drop kw.length with
    | nil =>
      show (true && rightBdry [d]) = (true && rightBdry [])
      rw [rightBdry, rightBdry, hd]
      rfl
    | cons e l => rfl

theorem cwAux_snoc {kw : List Char} {p : Char} {pt : List Char} (hkw : kw = p :: pt)
    (hw : ∀ c ∈ kw, isWordChar c = true) {d : Char} (hd : isWordChar d = false) :
    ∀ (w : List Char) (b : Bool), cwAux kw b (w ++ [d]) = cwAux kw b w := by
  intro w
  induction w with
  | nil =>
    intro b
    show ((!b && matchKwBdry kw [d]) || cwAux kw (isWordChar d) []) = cwAux kw b []
    have h1 : matchKwBdry kw [d] = matchKwBdry kw ([] ++ [d]) := rfl
    rw [h1, matchKwBdry_snoc hw hd []]
    have h2 : matchKwBdry kw [] = false := by
      rw [matchKwBdry, hkw]
      rfl
    rw [h2]
    simp [cwAux]
  | cons a w' ih =>
    intro b
    have h1 : cwAux kw b ((a :: w') ++ [d]) =
        ((!b && matchKwBdry kw ((a :: w') ++ [d])) || cwAux kw (isWordChar a) (w' ++ [d])) := rfl
    have h2 : cwAux kw b (a :: w') =
        ((!b && matchKwBdry kw (a :: w')) || cwAux kw (isWordChar a) w') := rfl
    rw [h1, h2, matchKwBdry_snoc hw hd (a :: w'), ih (isWordChar a)]

theorem containsSub_snoc {pat : List Char} {p : Char} {pt : List Char} (hpat : pat = p :: pt)
    {d : Char} (hd : ¬d ∈ pat) :
    ∀ (w : List Char), containsSub pat (w ++ [d]) = containsSub pat w := by
  intro w
  induction w with
  | nil =>
    show (pat.isPrefixOf ([] ++ [d]) || containsSub pat []) = containsSub pat []
    rw [isPrefixOf_snoc hd []]
    rw [hpat]
    rfl
  | cons a w' ih =>
    have h1 : containsSub pat ((a :: w') ++ [d]) =
        (pat.isPrefixOf ((a :: w') ++ [d]) || containsSub pat (w' ++ [d])) := rfl
    have h2 : containsSub pat (a :: w') =
        (pat.isPrefixOf (a :: w') || containsSub pat w') := rfl
    rw [h1, h2, isPrefixOf_snoc hd (a :: w'), ih]

theorem clbAux_snoc {pat : List Char} {p : Char} {pt : List Char} (hpat : pat = p :: pt)
    {d : Char} (hd : ¬d ∈ pat) :
    ∀ (w : List Char) (b : Bool), clbAux pat b (w ++ [d]) = clbAux pat b w := by
  intro w
  induction w with
  | nil =>
    intro b
    show ((!b && pat.isPrefixOf ([] ++ [d])) || clbAux pat (isWordChar d) []) = clbAux pat b []
    rw [isPrefixOf_snoc hd []]
    have h2 : pat.isPrefixOf [] = false := by
      rw [hpat]
      rfl
    rw [h2]
    simp [clbAux]
  | cons a w' ih =>
    intro b
    have h1 : clbAux pat b ((a :: w') ++ [d]) =
        ((!b && pat.isPrefixOf ((a :: w') ++ [d])) || clbAux pat (isWordChar a) (w' ++ [d])) := rfl
    have h2 : clbAux pat b (a :: w') =
        ((!b && pat.isPrefixOf (a :: w')) || clbAux pat (isWordChar a) w') := rfl
    rw [h1, h2, isPrefixOf_snoc hd (a :: w'), ih (isWordChar a)]

theorem outfileTail_snoc {d : Char} (hd : isWordChar d = false) (w : List Char) :
    outfileTail (w ++ [d]) = outfileTail w := by
  rw [outfileTail_eq, outfileTail_eq, matchKwBdry_snoc (by decide) hd w]

theorem blockPat4_append_single {ws : List (List Char)} {x : List Char}
    (h : blockPat4 ws = true) : blockPat4 (ws ++ [x]) = true := by
  induction ws with
  | nil => exact absurd h (by simp [blockPat4])
  | cons w1 rest ih =>
    have h1 : blockPat4 (w1 :: rest) =
        ((endsIntoB false w1 && firstBlockOutfile rest) || blockPat4 rest) := rfl
    rw [h1, Bool.or_eq_true] at h
    show ((endsIntoB false w1 && firstBlockOutfile (rest ++ [x])) || blockPat4 (rest ++ [x])) = true
    rcases h with h2 | h2
    · rw [Bool.and_eq_true] at h2
      match rest, h2 with
      | w2 :: r, h2 =>
        rw [Bool.or_eq_true]
        left
        rw [Bool.and_eq_true]
        exact ⟨h2.1, h2.2⟩
    · rw [ih h2]
      simp

theorem blockPat4_snocLast {ws : List (List Char)} {w : List Char}
    (h : blockPat4 (ws ++ [w]) = true) : blockPat4 (ws ++ [w ++ [';']]) = true := by
  induction ws with
  | nil =>
    exfalso
    have h1 : blockPat4 [w] = ((endsIntoB false w && firstBlockOutfile []) || blockPat4 []) := rfl
    rw [List.nil_append, h1] at h
    simp [firstBlockOutfile, blockPat4] at h
  | cons w1 rest ih =>
    have h1 : blockPat4 ((w1 :: rest) ++ [w]) =
        ((endsIntoB false w1 && firstBlockOutfile (rest ++ [w])) || blockPat4 (rest ++ [w])) := rfl
    rw [h1, Bool.or_eq_true] at h
    show ((endsIntoB false w1 && firstBlockOutfile (rest ++ [w ++ [';']])) ||
      blockPat4 (rest ++ [w ++ [';']])) = true
    rcases h with h2 | h2
    · rw [Bool.and_eq_true] at h2
      rw [Bool.or_eq_true]
      left
      rw [Bool.and_eq_true]
      refine ⟨h2.1, ?_⟩
      match rest, h2 with
      | [], h2 =>
        show outfileTail (w ++ [';']) = true
        rw [outfileTail_snoc (by decide) w]
        exact h2.2
      | w2 :: r, h2 => exact h2.2
    · rw [ih h2]
      simp

/-! ### Transfer of scans from the sanitized text back to the original -/

theorem upperL_semi : upperL [';'] = [';'] := by decide

theorem blocks_stripSemi_upper (t : List Char) :
    splitWs (upperL (stripSemi (strip t))) = splitWs (upperL t) ∨
      (∃ ws, splitWs (upperL t) = ws ++ [[';']] ∧
        splitWs (upperL (stripSemi (strip t))) = ws) ∨
      (∃ ws w, splitWs (upperL t) = ws ++ [w ++ [';']] ∧
        splitWs (upperL (stripSemi (strip t))) = ws ++ [w]) := by
  have h0 := blocks_stripSemi (strip t)
  rw [splitWs_strip] at h0
  rcases h0 with h1 | ⟨ws, h1, h2⟩ | ⟨ws, w, h1, h2⟩
  · left
    rw [splitWs_upper, splitWs_upper, h1]
  · right; left
    refine ⟨ws.map upperL, ?_, ?_⟩
    · rw [splitWs_upper, h1, List.map_append]
      rw [show ([[';']] : List (List Char)).map upperL = [[';']] from by decide]
    · rw [splitWs_upper, h2]
  · right; right
    refine ⟨ws.map upperL, upperL w, ?_, ?_⟩
    · rw [splitWs_upper, h1, List.map_append]
      have h3 : ([w ++ [';']] : List (List Char)).map upperL = [upperL w ++ [';']] := by
        simp only [List.map_cons, List.map_nil, upperL, List.map_append]
        rw [show (';'.toUpper) = ';' from by decide]
      rw [h3]
    · rw [splitWs_upper, h2, List.map_append]
      rfl

theorem any_semiblocks_transfer {f : List Char → Bool}
    (hf : ∀ w, f (w ++ [';']) = f w) {bs bsp : List (List Char)}
    (hrel : bsp = bs ∨ (∃ ws, bs = ws ++ [[';']] ∧ bsp = ws) ∨
      (∃ ws w, bs = ws ++ [w ++ [';']] ∧ bsp = ws ++ [w]))
    (h : bsp.any f = true) : bs.any f = true := by
  rcases hrel with rfl | ⟨ws, h1, rfl⟩ | ⟨ws, w, h1, rfl⟩
  · exact h
  · rw [h1, List.any_append, h]
    rfl
  · rw [h1, List.any_append]
    rw [List.any_append, Bool.or_eq_true] at h
    rcases h with h3 | h3
    · rw [h3]
      rfl
    · have h4 : f w = true := by simpa using h3
      have h5 : f (w ++ [';']) = true := by rw [hf w]; exact h4
      rw [Bool.or_eq_true]
      right
      simpa using h5

theorem blockPat4_semiblocks_transfer {bs bsp : List (List Char)}
    (hrel : bsp = bs ∨ (∃ ws, bs = ws ++ [[';']] ∧ bsp = ws) ∨
      (∃ ws w, bs = ws ++ [w ++ [';']] ∧ bsp = ws ++ [w]))
    (h : blockPat4 bsp = true) : blockPat4 bs = true := by
  rcases hrel with rfl | ⟨ws, h1, rfl⟩ | ⟨ws, w, h1, rfl⟩
  · exact h
  · rw [h1]
    exact blockPat4_append_single h
  · rw [h1]
    exact blockPat4_snocLast h

/-! ### Remaining string lemmas -/

theorem rstrip_eq_nil_iff (s : List Char) :
    rstrip s = [] ↔ ∀ c ∈ s, pyIsSpace c = true := by
  rw [rstrip]
  constructor
  · intro h c hc
    have h1 : s.reverse.dropWhile pyIsSpace = [] := by
      have := congrArg List.reverse h
      simpa using this
    exact List.dropWhile_eq_nil_iff.1 h1 c (List.mem_reverse.2 hc)
  · intro h
    rw [List.dropWhile_eq_nil_iff.2 (fun x hx => h x (List.mem_reverse.1 hx))]
    rfl

theorem strip_eq_nil_iff (s : List Char) :
    strip s = [] ↔ ∀ c ∈ s, pyIsSpace c = true := by
  rw [strip, rstrip_eq_nil_iff]
  constructor
  · intro h c hc
    by_cases hcs : pyIsSpace c
    · exact hcs
    · exfalso
      have h1 : s.dropWhile pyIsSpace ≠ [] := by
        intro hnil
        exact hcs (List.dropWhile_eq_nil_iff.1 hnil c hc)
      match hLs : s.dropWhile pyIsSpace with
      | [] => exact h1 hLs
      | d :: ds =>
        have hd : pyIsSpace d = true := h d (by rw [lstrip, hLs]; simp)
        have hd2 : ¬pyIsSpace d = true := by
          intro hdd
          have := List.head?_dropWhile_not pyIsSpace s
          rw [hLs] at this
          simp [hdd] at this
        exact hd2 hd
  · intro h c hc
    exact h c (List.dropWhile_subset pyIsSpace hc)

theorem splitWs_ne_nil_of_strip_ne_nil {s : List Char} (h : strip s ≠ []) :
    splitWs s ≠ [] := by
  intro hnil
  exact h ((strip_eq_nil_iff s).2 ((splitWs_eq_nil_iff s).1 hnil))

theorem toUpper_semi_inv {c : Char} (h : c.toUpper = ';') : c = ';' := by
  by_cases hc : 97 ≤ c.toNat ∧ c.toNat ≤ 122
  · exfalso
    have h1 := toNat_toUpper c
    rw [if_pos hc, h] at h1
    revert h1
    intro h1
    have h2 : (';' : Char).toNat = 59 := by decide
    omega
  · rwa [toUpper_of_not_lower hc] at h

theorem semi_not_mem_upperL {s : List Char} (h : ¬ ';' ∈ s) : ¬ ';' ∈ upperL s := by
  intro hmem
  rw [upperL, List.mem_map] at hmem
  obtain ⟨c, hc, hcu⟩ := hmem
  rw [toUpper_semi_inv hcu] at hc
  exact h hc

theorem isPrefixOf_rstrip {pat : List Char} (hpat : ∀ c ∈ pat, pyIsSpace c = false)
    (z : List Char) : pat.isPrefixOf (rstrip z) = pat.isPrefixOf z := by
  obtain ⟨h1, h2⟩ := rstrip_decomp z
  have hr : (z.reverse.takeWhile pyIsSpace).reverse = [] ∨
      ∃ d r', (z.reverse.takeWhile pyIsSpace).reverse = d :: r' ∧ pyIsSpace d = true := by
    match hsp : (z.reverse.takeWhile pyIsSpace).reverse with
    | [] => exact Or.inl rfl
    | d :: r' => exact Or.inr ⟨d, r', rfl, h2 d (by rw [hsp]; simp)⟩
  conv_rhs => rw [h1]
  rw [isPrefixOf_append_spaceheaded hpat hr (rstrip z)]

/-- Whether a pattern is a prefix of the first whitespace block. -/
def firstBlockPrefix (pat : List Char) : List (List Char) → Bool
  | [] => false
  | w :: _ => pat.isPrefixOf w

theorem prefix_strip_blocks {pat : List Char} (hpat : pat ≠ [])
    (hns : ∀ c ∈ pat, pyIsSpace c = false) (y : List Char) :
    pat.isPrefixOf (strip y) = firstBlockPrefix pat (splitWs y) := by
  rw [strip, isPrefixOf_rstrip hns, ← splitWs_lstrip y]
  rcases lstrip_head y with hq | ⟨e, q', hq, he⟩
  · rw [hq, splitWs_nil]
    match pat, hpat with
    | p :: pt, _ => rfl
  · rw [hq, splitWs_cons_nonspace he]
    show pat.isPrefixOf (e :: q') = pat.isPrefixOf ((e :: q').takeWhile (fun x => !pyIsSpace x))
    conv_lhs => rw [← List.takeWhile_append_dropWhile (fun x => !pyIsSpace x) (e :: q')]
    rw [isPrefixOf_append_spaceheaded hns (dropWhile_nonspace_head (e :: q'))]

/-! ### Decomposing `isSafeQuery` -/

theorem isSafeQuery_empty {t : List Char} (h : strip t = []) :
    isSafeQuery t = (false, "Empty query provided") := by
  unfold isSafeQuery
  rw [if_pos h]

theorem isSafeQuery_main {t : List Char} (c1 : strip t ≠ [])
    (c2 : (allowed_starts.any fun op => op.toList.isPrefixOf (strip (upperL t))) = true) :
    isSafeQuery t =
      (match DANGEROUS_KEYWORDS.find? (fun kw => containsWord kw.toList (strip (upperL t))) with
      | some kw => (false, "Query contains forbidden keyword: " ++ kw)
      | none =>
        if hasDangerousPattern t then (false, "Query contains forbidden pattern or syntax")
        else if t.count ';' > 1 then (false, "Multiple SQL statements are not allowed")
        else if (t.count ';' == 1) && !((strip t).getLast? == some ';') then
          (false, "Semicolon found in middle of query")
        else (true, "")) := by
  simp only [isSafeQuery, if_neg c1, c2]
  simp

theorem safe_assemble {t : List Char}
    (c1 : strip t ≠ [])
    (c2 : (allowed_starts.any fun op => op.toList.isPrefixOf (strip (upperL t))) = true)
    (c3 : ∀ kw ∈ DANGEROUS_KEYWORDS, containsWord kw.toList (strip (upperL t)) = false)
    (c4 : hasDangerousPattern t = false)
    (c5 : t.count ';' ≤ 1)
    (c6 : t.count ';' = 1 → (strip t).getLast? = some ';') :
    isSafeQuery t = (true, "") := by
  have h3 : DANGEROUS_KEYWORDS.find?
      (fun kw => containsWord kw.toList (strip (upperL t))) = none :=
    List.find?_eq_none.2 fun kw hkw h9 => Bool.false_ne_true ((c3 kw hkw).symm.trans h9)
  have hc6 : ((t.count ';' == 1) && !((strip t).getLast? == some ';')) = false := by
    by_cases hcnt : t.count ';' = 1
    · rw [c6 hcnt]
      simp
    · have h5 : (t.count ';' == 1) = false := by simpa using hcnt
      rw [h5]
      rfl
  have hgt : ¬t.count ';' > 1 := by omega
  rw [isSafeQuery_main c1 c2, h3]
  simp [c4, hgt, hc6]

theorem safe_atoms {t : List Char} (h : (isSafeQuery t).1 = true) :
    strip t ≠ [] ∧
      (allowed_starts.any fun op => op.toList.isPrefixOf (strip (upperL t))) = true ∧
      (∀ kw ∈ DANGEROUS_KEYWORDS, containsWord kw.toList (strip (upperL t)) = false) ∧
      hasDangerousPattern t = false ∧
      t.count ';' ≤ 1 ∧
      (t.count ';' = 1 → (strip t).getLast? = some ';') := by
  have a1 : strip t ≠ [] := by
    intro hnil
    rw [isSafeQuery_empty hnil] at h
    simp at h
  have a2 : (allowed_starts.any fun op => op.toList.isPrefixOf (strip (upperL t))) = true := by
    by_contra hna
    have h2 : (allowed_starts.any fun op => op.toList.isPrefixOf (strip (upperL t))) = false := by
      simpa using hna
    simp only [isSafeQuery, if_neg a1] at h
    rw [h2] at h
    simp at h
  rw [isSafeQuery_main a1 a2] at h
  have a3 : ∀ kw ∈ DANGEROUS_KEYWORDS, containsWord kw.toList (strip (upperL t)) = false := by
    by_contra hna
    push_neg at hna
    obtain ⟨kw, hkw, hp⟩ := hna
    have hp2 : containsWord kw.toList (strip (upperL t)) = true := by
      cases hb : containsWord kw.toList (strip (upperL t))
      · exact absurd hb hp
      · rfl
    have hne : DANGEROUS_KEYWORDS.find?
        (fun kw => containsWord kw.toList (strip (upperL t))) ≠ none := fun hnone =>
      List.find?_eq_none.1 hnone kw hkw hp2
    match hfind : DANGEROUS_KEYWORDS.find?
        (fun kw => containsWord kw.toList (strip (upperL t))) with
    | none => exact absurd hfind hne
    | some kw2 =>
      rw [hfind] at h
      simp at h
  have hfn : DANGEROUS_KEYWORDS.find?
      (fun kw => containsWord kw.toList (strip (upperL t))) = none :=
    List.find?_eq_none.2 fun kw hkw h9 => Bool.false_ne_true ((a3 kw hkw).symm.trans h9)
  rw [hfn] at h
  have a4 : hasDangerousPattern t = false := by
    by_contra hna
    have h4 : hasDangerousPattern t = true := by
      cases hb : hasDangerousPattern t
      · exact absurd hb hna
      · rfl
    simp [h4] at h
  rw [if_neg (by simp [a4])] at h
  have a5 : t.count ';' ≤ 1 := by
    by_contra hna
    have h5 : t.count ';' > 1 := by omega
    simp [h5] at h
  rw [if_neg (by omega : ¬t.count ';' > 1)] at h
  have a6 : t.count ';' = 1 → (strip t).getLast? = some ';' := by
    intro hcnt
    by_contra hne
    have h6 : ((strip t).getLast? == some ';') = false := by
      simpa using hne
    simp [hcnt, h6] at h
  exact ⟨a1, a2, a3, a4, a5, a6⟩

theorem safe_pair {t : List Char} (h : (isSafeQuery t).1 = true) :
    isSafeQuery t = (true, "") := by
  obtain ⟨a1, a2, a3, a4, a5, a6⟩ := safe_atoms h
  exact safe_assemble a1 a2 a3 a4 a5 a6

theorem mem_of_getLast?_eq {l : List Char} {c : Char} (h : l.getLast? = some c) : c ∈ l := by
  have hne : l ≠ [] := by
    intro h2
    rw [h2] at h
    simp at h
  rw [← (List.getLast_eq_iff_getLast_eq_some hne).2 h]
  exact List.getLast_mem hne

theorem allowed_ops_facts : ∀ op ∈ allowed_starts, op.toList ≠ [] ∧
    (∀ c ∈ op.toList, pyIsSpace c = false) ∧ ¬ ';' ∈ op.toList ∧
    op.toList.isPrefixOf [';'] = false := by decide

theorem dangerous_kw_facts : ∀ kw ∈ DANGEROUS_KEYWORDS, kw.toList ≠ [] ∧
    (∀ c ∈ kw.toList, pyIsSpace c = false) ∧ (∀ c ∈ kw.toList, isWordChar c = true) := by
  decide

theorem sanitize_query_eq (t : List Char) :
    sanitize_query t = joinWords (splitWs (stripSemi (strip t))) := rfl

theorem splitWs_sanitize (t : List Char) :
    splitWs (sanitize_query t) = splitWs (stripSemi (strip t)) := by
  rw [sanitize_query_eq]
  exact splitWs_join blocks_props

theorem splitWs_upper_sanitize (t : List Char) :
    splitWs (upperL (sanitize_query t)) = splitWs (upperL (stripSemi (strip t))) := by
  rw [splitWs_upper, splitWs_upper, splitWs_sanitize]

theorem strip_sanitize (t : List Char) :
    strip (sanitize_query t) = sanitize_query t := by
  rw [sanitize_query_eq, strip]
  rw [lstrip_eq_self (fun c hc => by
    obtain ⟨w, hw, hh⟩ := joinWords_head? (fun x hx => (blocks_props x hx).1) c hc
    exact (blocks_props w hw).2 c (List.mem_of_mem_head? (by simp [hh])))]
  exact rstrip_eq_self (fun c hc => by
    obtain ⟨w, hw, hh⟩ := joinWords_getLast? (fun x hx => (blocks_props x hx).1) c hc
    exact (blocks_props w hw).2 c (mem_of_getLast?_eq hh))

theorem blocks_upper_t_shape {t : List Char}
    (a2 : (allowed_starts.any fun op => op.toList.isPrefixOf (strip (upperL t))) = true) :
    splitWs (upperL t) ≠ [] ∧ splitWs (upperL t) ≠ [[';']] := by
  rw [List.any_eq_true] at a2
  obtain ⟨op, hop, hpre⟩ := a2
  obtain ⟨hne, hns, hnsemi, hpsemi⟩ := allowed_ops_facts op hop
  have hpre2 : op.toList.isPrefixOf (strip (upperL t)) = true := hpre
  rw [prefix_strip_blocks hne hns (upperL t)] at hpre2
  constructor
  · intro hnil
    rw [hnil] at hpre2
    exact Bool.false_ne_true hpre2
  · intro hsemi
    rw [hsemi] at hpre2
    rw [show firstBlockPrefix op.toList [[';']] = op.toList.isPrefixOf [';'] from rfl,
      hpsemi] at hpre2
    exact Bool.false_ne_true hpre2

theorem firstBlockPrefix_rel {pat : List Char} (hsemi : ¬ ';' ∈ pat)
    {bs bsp : List (List Char)}
    (hrel : bsp = bs ∨ (∃ ws, bs = ws ++ [[';']] ∧ bsp = ws) ∨
      (∃ ws w, bs = ws ++ [w ++ [';']] ∧ bsp = ws ++ [w]))
    (hshape : bs ≠ [[';']]) :
    firstBlockPrefix pat bsp = firstBlockPrefix pat bs := by
  rcases hrel with rfl | ⟨ws, h1, h2⟩ | ⟨ws, w, h1, h2⟩
  · rfl
  · rw [h1, h2]
    match ws, h1 with
    | [], h1 => exact absurd h1 hshape
    | x :: ws', _ => rfl
  · rw [h1, h2]
    match ws with
    | [] => exact (isPrefixOf_snoc hsemi w).symm
    | x :: ws' => rfl

/-! ### Safety of the sanitized text -/

theorem count_semi_sanitize {t : List Char} (h : (isSafeQuery t).1 = true) :
    (sanitize_query t).count ';' = 0 := by
  obtain ⟨a1, a2, a3, a4, a5, a6⟩ := safe_atoms h
  rw [sanitize_query_eq, count_joinWords (by decide), count_splitWs (by decide)]
  by_cases hE : (strip t).getLast? = some ';'
  · have hdec : (strip t).dropLast ++ [';'] = strip t := by
      have h1 := List.dropLast_append_getLast a1
      rwa [(List.getLast_eq_iff_getLast_eq_some a1).2 hE] at h1
    have hss : stripSemi (strip t) = strip ((strip t).dropLast) := by
      rw [stripSemi, if_pos (by simpa using hE)]
    rw [hss, count_strip (by decide)]
    have hc1 : (strip t).count ';' = (strip t).dropLast.count ';' + 1 := by
      conv_lhs => rw [← hdec]
      rw [List.count_append]
      simp
    have hc2 : (strip t).count ';' = t.count ';' := count_strip (by decide) t
    omega
  · have hss : stripSemi (strip t) = strip t := by
      rw [stripSemi, if_neg (by simpa using hE)]
    rw [hss, count_strip (by decide)]
    rcases Nat.lt_or_ge (t.count ';') 1 with h1 | h1
    · omega
    · have h2 : t.count ';' = 1 := by omega
      exact absurd (a6 h2) hE

theorem sanitize_ne_nil {t : List Char} (h : (isSafeQuery t).1 = true) :
    sanitize_query t ≠ [] := by
  obtain ⟨a1, a2, _, _, _, _⟩ := safe_atoms h
  have hsh := blocks_upper_t_shape a2
  rw [sanitize_query_eq]
  apply joinWords_ne_nil ?hblocks (fun w hw => (blocks_props w hw).1)
  intro hnil
  have hnil2 : splitWs (upperL (stripSemi (strip t))) = [] := by
    rw [splitWs_upper, hnil]
    rfl
  rcases blocks_stripSemi_upper t with h1 | ⟨ws, h1, h2⟩ | ⟨ws, w, h1, h2⟩
  · exact hsh.1 (by rw [← h1]; exact hnil2)
  · rw [hnil2] at h2
    rw [← h2] at h1
    exact hsh.2 (by rw [h1]; rfl)
  · rw [hnil2] at h2
    exact absurd h2.symm (by simp)

theorem sanitize_getLast_ne {t : List Char} (h : (isSafeQuery t).1 = true) :
    ¬(sanitize_query t).getLast? = some ';' := by
  intro hE
  have h0 := count_semi_sanitize h
  rw [List.count_eq_zero] at h0
  exact h0 (mem_of_getLast?_eq hE)

theorem prefix_strip_upper_sanitize {t : List Char} (h : (isSafeQuery t).1 = true)
    (pat : List Char) (hne : pat ≠ []) (hns : ∀ c ∈ pat, pyIsSpace c = false)
    (hsemi : ¬ ';' ∈ pat) :
    pat.isPrefixOf (strip (upperL (sanitize_query t))) =
      pat.isPrefixOf (strip (upperL t)) := by
  obtain ⟨a1, a2, _, _, _, _⟩ := safe_atoms h
  rw [prefix_strip_blocks hne hns, prefix_strip_blocks hne hns,
    splitWs_upper_sanitize,
    firstBlockPrefix_rel hsemi (blocks_stripSemi_upper t) (blocks_upper_t_shape a2).2]

theorem get_query_type_sanitize {t : List Char} (h : (isSafeQuery t).1 = true) :
    get_query_type (sanitize_query t) = get_query_type t := by
  have hS := prefix_strip_upper_sanitize h "SELECT".toList
    (by decide) (by decide) (by decide)
  have hI := prefix_strip_upper_sanitize h "INSERT".toList
    (by decide) (by decide) (by decide)
  have hU := prefix_strip_upper_sanitize h "UPDATE".toList
    (by decide) (by decide) (by decide)
  have hD := prefix_strip_upper_sanitize h "DELETE".toList
    (by decide) (by decide) (by decide)
  simp only [get_query_type, hS, hI, hU, hD]

theorem allowed_any_sanitize {t : List Char} (h : (isSafeQuery t).1 = true) :
    (allowed_starts.any fun op =>
      op.toList.isPrefixOf (strip (upperL (sanitize_query t)))) = true := by
  obtain ⟨a1, a2, _, _, _, _⟩ := safe_atoms h
  rw [List.any_eq_true] at a2 ⊢
  obtain ⟨op, hop, hpre⟩ := a2
  obtain ⟨hne, hns, hnsemi, _⟩ := allowed_ops_facts op hop
  exact ⟨op, hop, by
    show op.toList.isPrefixOf (strip (upperL (sanitize_query t))) = true
    rw [prefix_strip_upper_sanitize h op.toList hne hns hnsemi]
    exact hpre⟩

theorem scan_sanitize_transfer {t : List Char} {f : List Char → Bool}
    (hblocks : ∀ s, f s = (splitWs s).any (fun w => f w))
    (hf : ∀ w, f (w ++ [';']) = f w)
    (h4 : f (upperL t) = false) : f (upperL (sanitize_query t)) = false := by
  cases hb : f (upperL (sanitize_query t))
  · rfl
  · exfalso
    rw [hblocks, splitWs_upper_sanitize] at hb
    have hb2 := any_semiblocks_transfer hf (blocks_stripSemi_upper t) hb
    rw [hblocks (upperL t), hb2] at h4
    exact Bool.false_ne_true h4.symm

theorem scan_sanitize_transfer_strip {t : List Char} {f : List Char → Bool}
    (hblocks : ∀ s, f s = (splitWs s).any (fun w => f w))
    (hf : ∀ w, f (w ++ [';']) = f w)
    (h4 : f (strip (upperL t)) = false) : f (strip (upperL (sanitize_query t))) = false := by
  cases hb : f (strip (upperL (sanitize_query t)))
  · rfl
  · exfalso
    rw [hblocks, splitWs_strip, splitWs_upper_sanitize] at hb
    have hb2 := any_semiblocks_transfer hf (blocks_stripSemi_upper t) hb
    rw [hblocks (strip (upperL t)), splitWs_strip, hb2] at h4
    exact Bool.false_ne_true h4.symm

theorem keywords_sanitize {t : List Char} (h : (isSafeQuery t).1 = true) :
    ∀ kw ∈ DANGEROUS_KEYWORDS,
      containsWord kw.toList (strip (upperL (sanitize_query t))) = false := by
  obtain ⟨a1, a2, a3, _, _, _⟩ := safe_atoms h
  intro kw hkw
  obtain ⟨hne, hns, hword⟩ := dangerous_kw_facts kw hkw
  obtain ⟨p, pt, hkl⟩ := List.exists_cons_of_ne_nil hne
  exact scan_sanitize_transfer_strip (containsWord_blocks hkl hns)
    (fun w => cwAux_snoc hkl hword (by decide) w false) (a3 kw hkw)

theorem pattern_components {t : List Char} (h4 : hasDangerousPattern t = false) :
    pat1Aux (upperL t) = false ∧ containsSub "--".toList (upperL t) = false ∧
      containsSub "/*".toList (upperL t) = false ∧ pat4Aux false (upperL t) = false ∧
      containsWord "LOAD_FILE".toList (upperL t) = false ∧
      containsLB "EXEC(".toList (upperL t) = false ∧
      containsLB "SYS.".toList (upperL t) = false ∧
      containsLB "XP_".toList (upperL t) = false := by
  simp only [hasDangerousPattern, Bool.or_eq_false_iff] at h4
  exact ⟨h4.1.1.1.1.1.1.1, h4.1.1.1.1.1.1.2, h4.1.1.1.1.1.2, h4.1.1.1.1.2,
    h4.1.1.1.2, h4.1.1.2, h4.1.2, h4.2⟩

theorem pattern_sanitize {t : List Char} (h : (isSafeQuery t).1 = true) :
    hasDangerousPattern (sanitize_query t) = false := by
  obtain ⟨a1, a2, a3, a4, a5, a6⟩ := safe_atoms h
  obtain ⟨p1, p2, p3, p4, p5, p6, p7, p8⟩ := pattern_components a4
  have q1 : pat1Aux (upperL (sanitize_query t)) = false := by
    apply pat1Aux_semifree
    apply semi_not_mem_upperL
    have h0 := count_semi_sanitize h
    rw [List.count_eq_zero] at h0
    exact h0
  have q2 : containsSub "--".toList (upperL (sanitize_query t)) = false :=
    scan_sanitize_transfer (containsSub_blocks rfl (by decide))
      (containsSub_snoc rfl (by decide)) p2
  have q3 : containsSub "/*".toList (upperL (sanitize_query t)) = false :=
    scan_sanitize_transfer (containsSub_blocks rfl (by decide))
      (containsSub_snoc rfl (by decide)) p3
  have q4 : pat4Aux false (upperL (sanitize_query t)) = false := by
    cases hb : pat4Aux false (upperL (sanitize_query t))
    · rfl
    · exfalso
      rw [pat4_blocks, splitWs_upper_sanitize] at hb
      have hb2 := blockPat4_semiblocks_transfer (blocks_stripSemi_upper t) hb
      rw [pat4_blocks, hb2] at p4
      exact Bool.false_ne_true p4.symm
  have q5 : containsWord "LOAD_FILE".toList (upperL (sanitize_query t)) = false :=
    scan_sanitize_transfer (containsWord_blocks rfl (by decide))
      (fun w => cwAux_snoc rfl (by decide) (by decide) w false) p5
  have q6 : containsLB "EXEC(".toList (upperL (sanitize_query t)) = false :=
    scan_sanitize_transfer (containsLB_blocks rfl (by decide))
      (fun w => clbAux_snoc rfl (by decide) w false) p6
  have q7 : containsLB "SYS.".toList (upperL (sanitize_query t)) = false :=
    scan_sanitize_transfer (containsLB_blocks rfl (by decide))
      (fun w => clbAux_snoc rfl (by decide) w false) p7
  have q8 : containsLB "XP_".toList (upperL (sanitize_query t)) = false :=
    scan_sanitize_transfer (containsLB_blocks rfl (by decide))
      (fun w => clbAux_snoc rfl (by decide) w false) p8
  simp only [hasDangerousPattern, Bool.or_eq_false_iff]
  exact ⟨⟨⟨⟨⟨⟨⟨q1, q2⟩, q3⟩, q4⟩, q5⟩, q6⟩, q7⟩, q8⟩

/-- Sanitization of a safe text yields a safe text (with an empty reason). -/
theorem sanitize_safe {t : List Char} (h : (isSafeQuery t).1 = true) :
    isSafeQuery (sanitize_query t) = (true, "") := by
  have b1 : strip (sanitize_query t) ≠ [] := by
    rw [strip_sanitize]
    exact sanitize_ne_nil h
  have b5 : (sanitize_query t).count ';' ≤ 1 := by
    rw [count_semi_sanitize h]
    omega
  have b6 : (sanitize_query t).count ';' = 1 →
      (strip (sanitize_query t)).getLast? = some ';' := by
    intro hc
    rw [count_semi_sanitize h] at hc
    exact absurd hc (by omega)
  exact safe_assemble b1 (allowed_any_sanitize h) (keywords_sanitize h)
    (pattern_sanitize h) b5 b6

/-- Sanitization is a fixed point on safe texts. -/
theorem sanitize_fix {t : List Char} (h : (isSafeQuery t).1 = true) :
    sanitize_query (sanitize_query t) = sanitize_query t := by
  conv_lhs => rw [sanitize_query_eq (sanitize_query t)]
  rw [strip_sanitize]
  have hss : stripSemi (sanitize_query t) = sanitize_query t := by
    rw [stripSemi, if_neg (by simpa using sanitize_getLast_ne h)]
  rw [hss, splitWs_sanitize]
  rw [← sanitize_query_eq]

/-! ### `validate_and_sanitize` bridging -/

theorem validate_fst (t : List Char) :
    (validate_and_sanitize t).1 = (isSafeQuery t).1 := by
  rw [validate_and_sanitize]
  cases hb : (isSafeQuery t).1 <;> simp [hb]

theorem validate_eq_of_safe {t : List Char} (h : (isSafeQuery t).1 = true) :
    validate_and_sanitize t = (true, sanitize_query t, "") := by
  simp [validate_and_sanitize, h]

theorem validate_eq_of_flagged {t : List Char} (h : (isSafeQuery t).1 = false) :
    validate_and_sanitize t = (false, [], (isSafeQuery t).2) := by
  simp [validate_and_sanitize, h]

theorem noWsRun_sanitize (t : List Char) : noWsRun (sanitize_query t) = true := by
  rw [sanitize_query_eq]
  exact noWsRun_joinWords blocks_props

theorem unknown_iff_any_false (t : List Char) :
    get_query_type t = "UNKNOWN" ↔
      (allowed_starts.any fun op => op.toList.isPrefixOf (strip (upperL t))) = false := by
  simp only [get_query_type, allowed_starts, WRITE_OPERATIONS, List.any_cons, List.any_nil]
  cases h1 : "SELECT".toList.isPrefixOf (strip (upperL t)) <;>
    cases h2 : "INSERT".toList.isPrefixOf (strip (upperL t)) <;>
      cases h3 : "UPDATE".toList.isPrefixOf (strip (upperL t)) <;>
        cases h4 : "DELETE".toList.isPrefixOf (strip (upperL t)) <;>
          simp [h1, h2, h3, h4]

/-! ### Executor lemmas -/

theorem execute_sql_rejected {db : List Char → DbOutcome} {sql : List Char}
    (h : (isSafeQuery sql).1 = false) :
    execute_sql db sql =
      ({ success := false,
         error := some ("Query failed safety validation: " ++ (isSafeQuery sql).2) }, []) := by
  simp [execute_sql, validate_eq_of_flagged h]

theorem execute_sql_trace_safe {db : List Char → DbOutcome} {sql : List Char}
    (h : (isSafeQuery sql).1 = true) :
    (execute_sql db sql).2 = [sanitize_query sql] := by
  simp only [execute_sql, validate_eq_of_safe h]
  cases db (sanitize_query sql) <;> simp <;> split <;> rfl

theorem execute_sql_sqlErr {db : List Char → DbOutcome} {sql : List Char} {m : String}
    (h : (isSafeQuery sql).1 = true) (hdb : db (sanitize_query sql) = DbOutcome.sqlErr m) :
    (execute_sql db sql).1 =
      { success := false, error := some ("Database error: " ++ m) } := by
  simp only [execute_sql, validate_eq_of_safe h]
  simp [hdb]

theorem execute_sql_otherErr {db : List Char → DbOutcome} {sql : List Char} {m : String}
    (h : (isSafeQuery sql).1 = true) (hdb : db (sanitize_query sql) = DbOutcome.otherErr m) :
    (execute_sql db sql).1 =
      { success := false, error := some ("Execution error: " ++ m) } := by
  simp only [execute_sql, validate_eq_of_safe h]
  simp [hdb]

theorem execute_sql_total (db : List Char → DbOutcome) (sql : List Char) :
    (execute_sql db sql).1.success = true ∨ (execute_sql db sql).1.error ≠ none := by
  cases hs : (isSafeQuery sql).1
  · right
    rw [execute_sql_rejected hs]
    simp
  · simp only [execute_sql, validate_eq_of_safe hs]
    cases hdb : db (sanitize_query sql) with
    | ok rows cols rowcount =>
      left
      simp only [hdb, Bool.not_true, Bool.false_eq_true, if_false]
      split <;> rfl
    | sqlErr m =>
      right
      simp [hdb]
    | otherErr m =>
      right
      simp [hdb]

theorem generate_sql_ok_shape {gen : List Char → List Char} {q s : List Char}
    (h : generate_sql gen q = GenResult.ok s) :
    (isSafeQuery (genProcessed gen q)).1 = true ∧
      s = sanitize_query (genProcessed gen q) := by
  simp only [generate_sql] at h
  by_cases h1 : "ERROR:".toList.isPrefixOf (genProcessed gen q) = true
  · rw [if_pos h1] at h
    exact absurd h (by simp)
  · rw [if_neg h1] at h
    cases hv : (validate_and_sanitize (genProcessed gen q)).1
    · rw [hv] at h
      simp at h
    · rw [hv] at h
      simp only [Bool.not_true, Bool.false_eq_true, if_false] at h
      have hsafe : (isSafeQuery (genProcessed gen q)).1 = true := by
        rwa [validate_fst] at hv
      refine ⟨hsafe, ?_⟩
      rw [GenResult.ok.injEq] at h
      rw [← h, validate_eq_of_safe hsafe]

/-! ### Endpoint lemmas -/

theorem nl_to_sql_preview {gen : List Char → List Char} {db : List Char → DbOutcome}
    {q s : List Char} (hgen : generate_sql gen q = GenResult.ok s)
    (hw : is_write_operation s = true) :
    nl_to_sql gen db q false =
      ({ success := true, question := q, sql := some s, is_write_operation := some true,
         query_type := some (get_query_type s),
         message := some ("⚠️ This is a " ++ get_query_type s ++
           " operation. Please review and confirm execution.") }, []) := by
  simp [nl_to_sql, hgen, hw]

theorem nl_to_sql_phase2_trace {gen : List Char → List Char} {db : List Char → DbOutcome}
    {q s : List Char} (hgen : generate_sql gen q = GenResult.ok s) :
    (nl_to_sql gen db q true).2 = (execute_sql db s).2 := by
  simp [nl_to_sql, process_nl_query, hgen]

/-! ### Claim theorems -/

/-- C1: the confirmation gate is the pure function
`requires_confirmation = is_write && !confirmed`: every statement classified
`INSERT`, `UPDATE` or `DELETE` requires confirmation exactly when
`confirmed = false`, and a `SELECT`- or `UNKNOWN`-classified statement never
requires confirmation. -/
theorem c1_confirmation_gate (t : List Char) :
    (get_query_type t = "INSERT" ∨ get_query_type t = "UPDATE" ∨
        get_query_type t = "DELETE" →
      requires_confirmation t false = true ∧ requires_confirmation t true = false) ∧
    (get_query_type t = "SELECT" ∨ get_query_type t = "UNKNOWN" →
      ∀ confirmed, requires_confirmation t confirmed = false) := by
  constructor
  · intro hw
    have hiw : is_write_operation t = true := by
      simp only [is_write_operation]
      rcases hw with h | h | h <;> rw [h] <;> decide
    simp [requires_confirmation, hiw]
  · intro hr confirmed
    have hiw : is_write_operation t = false := by
      simp only [is_write_operation]
      rcases hr with h | h <;> rw [h] <;> decide
    simp [requires_confirmation, hiw]

theorem c1_confirmation_gate_witness :
    requires_confirmation "UPDATE products SET price=9.99 WHERE id=5".toList false = true ∧
    requires_confirmation "UPDATE products SET price=9.99 WHERE id=5".toList true = false ∧
    requires_confirmation "SELECT * FROM users".toList false = false ∧
    requires_confirmation "SELECT * FROM users".toList true = false := by
  refine ⟨((c1_confirmation_gate _).1 (Or.inr (Or.inl (by decide)))).1,
    ((c1_confirmation_gate _).1 (Or.inr (Or.inl (by decide)))).2,
    (c1_confirmation_gate _).2 (Or.inl (by decide)) false,
    (c1_confirmation_gate _).2 (Or.inl (by decide)) true⟩

/-- C2: a statement text containing any of the sixteen blocklisted keywords
as a whole word (case-insensitively, i.e. as a `\b`-delimited occurrence in
the uppercased text) is always rejected by the validator. -/
theorem c2_blocklist_rejects (t : List Char) (kw : String)
    (hkw : kw ∈ DANGEROUS_KEYWORDS)
    (hw : containsWord kw.toList (upperL t) = true) :
    (isSafeQuery t).1 = false := by
  cases hb : (isSafeQuery t).1
  · rfl
  · exfalso
    obtain ⟨_, _, a3, _, _, _⟩ := safe_atoms hb
    obtain ⟨hne, hns, _⟩ := dangerous_kw_facts kw hkw
    obtain ⟨p, pt, hkl⟩ := List.exists_cons_of_ne_nil hne
    have heq : containsWord kw.toList (strip (upperL t)) =
        containsWord kw.toList (upperL t) := by
      rw [containsWord_blocks hkl hns, containsWord_blocks hkl hns, splitWs_strip]
    rw [a3 kw hkw, hw] at heq
    exact Bool.false_ne_true heq

theorem c2_blocklist_rejects_witness :
    (isSafeQuery "SELECT * FROM t WHERE drop_it = 1 OR drop = 2".toList).1 = false ∧
    (isSafeQuery "select 1; drop table users".toList).1 = false := by
  exact ⟨c2_blocklist_rejects _ "DROP" (by decide) (by decide),
    c2_blocklist_rejects _ "DROP" (by decide) (by decide)⟩

/-- C3 counterexample: `"SELECT 1; "` contains exactly one semicolon which
is not the final character of the text (the final character is a space),
yet validation — in particular the semicolon check — passes. -/
theorem c3_semicolon_counterexample :
    "SELECT 1; ".toList.count ';' = 1 ∧
    (isSafeQuery "SELECT 1; ".toList).1 = true ∧
    "SELECT 1; ".toList.getLast? ≠ some ';' := by
  refine ⟨by decide, by decide, by decide⟩

/-- C3 (amended): more than one semicolon is always rejected; a text with
exactly one semicolon passes validation only if that semicolon is the final
character of the **trimmed** text (the code checks
`sql.strip().endswith(';')`, so trailing whitespace after the semicolon is
tolerated). -/
theorem c3_semicolons_amended (t : List Char) :
    (t.count ';' > 1 → (isSafeQuery t).1 = false) ∧
    (t.count ';' = 1 → (isSafeQuery t).1 = true → (strip t).getLast? = some ';') := by
  constructor
  · intro hgt
    cases hb : (isSafeQuery t).1
    · rfl
    · obtain ⟨_, _, _, _, a5, _⟩ := safe_atoms hb
      omega
  · intro hc hs
    obtain ⟨_, _, _, _, _, a6⟩ := safe_atoms hs
    exact a6 hc

theorem c3_semicolons_amended_witness :
    (isSafeQuery "SELECT 1;; ".toList).1 = false ∧
    (strip "SELECT 1; ".toList).getLast? = some ';' := by
  exact ⟨(c3_semicolons_amended _).1 (by decide),
    (c3_semicolons_amended _).2 (by decide) (by decide)⟩

/-- C4 counterexample: the empty text classifies as `UNKNOWN` and is
rejected, but with the reason `"Empty query provided"`, not a reason naming
the allowed leading keywords. -/
theorem c4_unknown_counterexample :
    get_query_type ([] : List Char) = "UNKNOWN" ∧
    (isSafeQuery ([] : List Char)).1 = false ∧
    (isSafeQuery ([] : List Char)).2 ≠
      "Query must start with one of: SELECT, INSERT, UPDATE, DELETE" := by
  refine ⟨by decide, by decide, by decide⟩

/-- C4 (amended): every `UNKNOWN`-classified text fails validation; when
the text is not empty or whitespace-only, the reason names the allowed
leading keywords (otherwise the reason is `"Empty query provided"`). -/
theorem c4_unknown_rejected (t : List Char) (h : get_query_type t = "UNKNOWN") :
    (isSafeQuery t).1 = false ∧
    (strip t ≠ [] →
      (isSafeQuery t).2 =
        "Query must start with one of: SELECT, INSERT, UPDATE, DELETE") := by
  have hany := (unknown_iff_any_false t).1 h
  by_cases h1 : strip t = []
  · rw [isSafeQuery_empty h1]
    exact ⟨rfl, fun h2 => absurd h1 h2⟩
  · have hq : isSafeQuery t =
        (false, "Query must start with one of: " ++ String.intercalate ", " allowed_starts) := by
      simp only [isSafeQuery, if_neg h1]
      rw [hany]
      simp
    rw [hq]
    refine ⟨rfl, fun _ => by decide⟩

theorem c4_unknown_rejected_witness :
    (isSafeQuery "show tables".toList).1 = false ∧
    (isSafeQuery "show tables".toList).2 =
      "Query must start with one of: SELECT, INSERT, UPDATE, DELETE" := by
  refine ⟨(c4_unknown_rejected _ (by decide)).1,
    (c4_unknown_rejected _ (by decide)).2 (by decide)⟩

/-- C5: validation is idempotent through sanitization: whenever validation
succeeds, re-validating the sanitized text yields the identical result
triple, so sanitization is a fixed point. -/
theorem c5_validate_idempotent (t : List Char)
    (h : (validate_and_sanitize t).1 = true) :
    validate_and_sanitize (validate_and_sanitize t).2.1 = validate_and_sanitize t := by
  have hsafe : (isSafeQuery t).1 = true := by rwa [validate_fst] at h
  rw [validate_eq_of_safe hsafe]
  show validate_and_sanitize (sanitize_query t) = _
  have hsafe2 : (isSafeQuery (sanitize_query t)).1 = true := by
    rw [sanitize_safe hsafe]
  rw [validate_eq_of_safe hsafe2, sanitize_fix hsafe]

theorem c5_validate_idempotent_witness :
    validate_and_sanitize
        (validate_and_sanitize "  SELECT  a ,  b FROM t ; ".toList).2.1 =
      validate_and_sanitize "  SELECT  a ,  b FROM t ; ".toList :=
  c5_validate_idempotent _ (by decide)

/-- C6: `execute_sql` re-validates before execution; on validation failure
it returns a failure result carrying the validator's reason, sends nothing
to the datastore (empty trace, result independent of the engine), converts
`SQLAlchemyError` and any other raised exception into failure results with
descriptive messages, and always returns a structured result (success, or
failure with an error message). -/
theorem c6_execute_guard (db db2 : List Char → DbOutcome) (sql : List Char) :
    ((isSafeQuery sql).1 = false →
      (execute_sql db sql).1.success = false ∧
      (execute_sql db sql).1.error =
        some ("Query failed safety validation: " ++ (isSafeQuery sql).2) ∧
      (execute_sql db sql).2 = [] ∧
      execute_sql db sql = execute_sql db2 sql) ∧
    (∀ m, (isSafeQuery sql).1 = true → db (sanitize_query sql) = DbOutcome.sqlErr m →
      (execute_sql db sql).1.success = false ∧
      (execute_sql db sql).1.error = some ("Database error: " ++ m)) ∧
    (∀ m, (isSafeQuery sql).1 = true → db (sanitize_query sql) = DbOutcome.otherErr m →
      (execute_sql db sql).1.success = false ∧
      (execute_sql db sql).1.error = some ("Execution error: " ++ m)) ∧
    ((execute_sql db sql).1.success = true ∨ (execute_sql db sql).1.error ≠ none) := by
  refine ⟨?_, ?_, ?_, execute_sql_total db sql⟩
  · intro h
    rw [@execute_sql_rejected db _ h, @execute_sql_rejected db2 _ h]
    exact ⟨rfl, rfl, rfl, rfl⟩
  · intro m hs hdb
    rw [execute_sql_sqlErr hs hdb]
    exact ⟨rfl, rfl⟩
  · intro m hs hdb
    rw [execute_sql_otherErr hs hdb]
    exact ⟨rfl, rfl⟩

/-- A datastore stub that raises `SQLAlchemyError` on every statement. -/
def dbSqlErr : List Char → DbOutcome := fun _ => DbOutcome.sqlErr "boom"

/-- A datastore stub that succeeds on every statement with one affected
row and no result rows. -/
def dbOk1 : List Char → DbOutcome := fun _ => DbOutcome.ok [] [] 1

theorem c6_execute_guard_witness :
    (execute_sql dbSqlErr "DROP TABLE users".toList).1.success = false ∧
    (execute_sql dbSqlErr "DROP TABLE users".toList).2 = [] ∧
    (execute_sql dbSqlErr "SELECT * FROM users".toList).1.error =
      some ("Database error: " ++ "boom") := by
  refine ⟨((c6_execute_guard dbSqlErr dbOk1 "DROP TABLE users".toList).1 (by decide)).1,
    ((c6_execute_guard dbSqlErr dbOk1 "DROP TABLE users".toList).1 (by decide)).2.2.1,
    ((c6_execute_guard dbSqlErr dbOk1 "SELECT * FROM users".toList).2.1 "boom"
      (by decide) rfl).2⟩

/-- C7: an unconfirmed write produces a preview: the endpoint returns
`success = true`, `is_write_operation = some true`, the query type and a
warning message, with no data, row count or rows-affected, and performs no
datastore operation (empty trace, response independent of the engine). -/
theorem c7_preview_no_execution (gen : List Char → List Char)
    (db db2 : List Char → DbOutcome) (q s : List Char)
    (hgen : generate_sql gen q = GenResult.ok s)
    (hw : is_write_operation s = true) :
    nl_to_sql gen db q false =
      ({ success := true, question := q, sql := some s,
         is_write_operation := some true,
         query_type := some (get_query_type s),
         message := some ("⚠️ This is a " ++ get_query_type s ++
           " operation. Please review and confirm execution.") }, []) ∧
    nl_to_sql gen db q false = nl_to_sql gen db2 q false := by
  refine ⟨nl_to_sql_preview hgen hw, ?_⟩
  rw [@nl_to_sql_preview _ db _ _ hgen hw, @nl_to_sql_preview _ db2 _ _ hgen hw]

/-- A generator stub that always completes with the scenario-C statement. -/
def genUpdate : List Char → List Char :=
  fun _ => "UPDATE products SET price=9.99 WHERE id=5".toList

theorem c7_preview_no_execution_witness :
    nl_to_sql genUpdate dbOk1 "raise the price".toList false =
      ({ success := true, question := "raise the price".toList,
         sql := some "UPDATE products SET price=9.99 WHERE id=5".toList,
         is_write_operation := some true,
         query_type := some "UPDATE",
         message := some ("⚠️ This is a " ++ "UPDATE" ++
           " operation. Please review and confirm execution.") }, []) ∧
    nl_to_sql genUpdate dbOk1 "raise the price".toList false =
      nl_to_sql genUpdate dbSqlErr "raise the price".toList false := by
  have h := c7_preview_no_execution genUpdate dbOk1 dbSqlErr "raise the price".toList
    "UPDATE products SET price=9.99 WHERE id=5".toList (by decide) (by decide)
  exact ⟨by rw [h.1]; decide, h.2⟩

/-- C8: the two-phase protocol keeps no server-side state: the endpoint is
a pure function of the request (question, confirm flag) and its external
collaborators, and when the caller resubmits the same question with
`confirmed = true` the statement handed to the datastore is exactly the
statement text previewed in phase 1 (phase 2 re-generates and re-validates,
and on the already-sanitized text sanitization is the identity). -/
theorem c8_two_phase_same_statement (gen : List Char → List Char)
    (db : List Char → DbOutcome) (q s : List Char)
    (hgen : generate_sql gen q = GenResult.ok s)
    (hw : is_write_operation s = true) :
    (nl_to_sql gen db q false).1.sql = some s ∧
    (nl_to_sql gen db q false).2 = [] ∧
    (nl_to_sql gen db q true).2 = [s] := by
  obtain ⟨hsafe_u, hs_eq⟩ := generate_sql_ok_shape hgen
  have hsafe_s : (isSafeQuery s).1 = true := by
    rw [hs_eq, sanitize_safe hsafe_u]
  have hfix : sanitize_query s = s := by
    conv_lhs => rw [hs_eq]
    rw [sanitize_fix hsafe_u, hs_eq]
  refine ⟨?_, ?_, ?_⟩
  · rw [nl_to_sql_preview hgen hw]
  · rw [nl_to_sql_preview hgen hw]
  · rw [nl_to_sql_phase2_trace hgen, execute_sql_trace_safe hsafe_s, hfix]

theorem c8_two_phase_same_statement_witness :
    (nl_to_sql genUpdate dbOk1 "raise the price".toList false).1.sql =
      some "UPDATE products SET price=9.99 WHERE id=5".toList ∧
    (nl_to_sql genUpdate dbOk1 "raise the price".toList false).2 = [] ∧
    (nl_to_sql genUpdate dbOk1 "raise the price".toList true).2 =
      ["UPDATE products SET price=9.99 WHERE id=5".toList] :=
  c8_two_phase_same_statement genUpdate dbOk1 "raise the price".toList
    "UPDATE products SET price=9.99 WHERE id=5".toList (by decide) (by decide)

/-- C9: a write-classified statement that passes re-validation and executes
without datastore error is committed and shaped into a write result:
`success = true`, the rows-affected count, the query type, and the message
`"<TYPE> successful: <n> row(s) affected"`. -/
theorem c9_write_result (db : List Char → DbOutcome) (sql : List Char)
    (rows : List Row) (cols : List String) (n : Nat)
    (hw : is_write_operation sql = true) (hs : (isSafeQuery sql).1 = true)
    (hdb : db (sanitize_query sql) = DbOutcome.ok rows cols n) :
    execute_sql db sql =
      ({ success := true, data := some [], row_count := some 0, columns := some [],
         rows_affected := some n, query_type := some (get_query_type sql),
         message := some (get_query_type sql ++ " successful: " ++ toString n ++
           " row(s) affected"), error := none }, [sanitize_query sql]) := by
  have hqt := get_query_type_sanitize hs
  have hcontains : ["INSERT", "UPDATE", "DELETE"].contains
      (get_query_type (sanitize_query sql)) = true := by
    rw [hqt]
    exact hw
  simp only [execute_sql, validate_eq_of_safe hs, Bool.not_true, Bool.false_eq_true,
    if_false, hdb, hcontains, if_true, hqt]
  rw [hqt] at hcontains
  rw [if_pos hcontains]

theorem c9_write_result_witness :
    execute_sql dbOk1 "UPDATE products SET price=9.99 WHERE id=5".toList =
      ({ success := true, data := some [], row_count := some 0, columns := some [],
         rows_affected := some 1, query_type := some "UPDATE",
         message := some ("UPDATE" ++ " successful: " ++ toString 1 ++
           " row(s) affected"), error := none },
       ["UPDATE products SET price=9.99 WHERE id=5".toList]) := by
  have h := c9_write_result dbOk1 "UPDATE products SET price=9.99 WHERE id=5".toList
    [] [] 1 (by decide) (by decide) rfl
  rw [h]
  decide

/-- C10: on every successfully validated text the returned sanitized text
is non-empty, has no leading or trailing whitespace (stripping it is the
identity), contains no run of two or more consecutive whitespace
characters, and contains no semicolon at all. -/
theorem c10_sanitized_invariants (t : List Char)
    (h : (validate_and_sanitize t).1 = true) :
    (validate_and_sanitize t).2.1 ≠ [] ∧
    strip (validate_and_sanitize t).2.1 = (validate_and_sanitize t).2.1 ∧
    noWsRun (validate_and_sanitize t).2.1 = true ∧
    (validate_and_sanitize t).2.1.count ';' = 0 := by
  have hsafe : (isSafeQuery t).1 = true := by rwa [validate_fst] at h
  rw [validate_eq_of_safe hsafe]
  exact ⟨sanitize_ne_nil hsafe, strip_sanitize t, noWsRun_sanitize t,
    count_semi_sanitize hsafe⟩

theorem c10_sanitized_invariants_witness :
    (validate_and_sanitize "  SELECT  a ,  b FROM t ; ".toList).2.1 ≠ [] ∧
    strip (validate_and_sanitize "  SELECT  a ,  b FROM t ; ".toList).2.1 =
      (validate_and_sanitize "  SELECT  a ,  b FROM t ; ".toList).2.1 ∧
    noWsRun (validate_and_sanitize "  SELECT  a ,  b FROM t ; ".toList).2.1 = true ∧
    (validate_and_sanitize "  SELECT  a ,  b FROM t ; ".toList).2.1.count ';' = 0 :=
  c10_sanitized_invariants _ (by decide)
